import Mathlib

/-!
Verification development for the SystemVerilog testbench generator
(`main.py`).  The pure core of the program is embedded shallowly:

* the three `re.findall` scans of `parse_system_verilog` are embedded as
  an explicit left-to-right, non-overlapping scanner (`scanWith`) with a
  hand-rolled matcher per pattern, faithful to the backtracking
  behaviour of the Python `re` engine on these patterns;
* `sanitize_signal_name`, `generate_test_vectors`, `monitor_output` and
  `setup_simulation` are translated statement by statement (list appends
  in `for` loops become `foldl` with singleton appends, the `[-1]`
  surgery becomes `modifyLast`, `str.rstrip` becomes `rstripSet`);
* file reading, printing and file writing are external collaborators and
  are not modelled; `run_main` models the control flow of `main` after
  the source text has been read.

Character classes follow the ASCII behaviour of Python `re` (`\w`, `\s`)
and `str.lower`, which covers every input these claims quantify over.
-/

/-- Python regex `\w` on ASCII text: letters, digits, underscore. -/
def isWordChar (c : Char) : Bool := c.isAlpha || c.isDigit || c == '_'

/-- Python regex `\s` on ASCII text. -/
def isSpaceChar (c : Char) : Bool :=
  c == ' ' || c == '\t' || c == '\n' || c == '\r' || c == '\x0b' || c == '\x0c'

/-- Case-insensitive character comparison, as used by `re.IGNORECASE`. -/
def ciEq (a b : Char) : Bool := a.toLower == b.toLower

/-- Splits a list into the longest prefix satisfying `p` and the rest. -/
def spanP (p : Char → Bool) : List Char → List Char × List Char
  | [] => ([], [])
  | c :: cs =>
    if p c then
      let r := spanP p cs
      (c :: r.1, r.2)
    else ([], c :: cs)

/-- A list starts with the given prefix (exact characters). -/
def startsWithL : List Char → List Char → Bool
  | [], _ => true
  | _ :: _, [] => false
  | n :: ns, c :: cs => n == c && startsWithL ns cs

/-- Substring containment on character lists (Python `needle in haystack`). -/
def containsSub (needle : List Char) : List Char → Bool
  | [] => startsWithL needle []
  | c :: cs => startsWithL needle (c :: cs) || containsSub needle cs

/-- Matches a keyword case-insensitively at the head of the text and
returns the original text of the match together with the rest. -/
def matchKw : List Char → List Char → Option (List Char × List Char)
  | [], l => some ([], l)
  | _ :: _, [] => none
  | k :: ks, c :: cs =>
    if ciEq c k then (matchKw ks cs).map (fun p => (c :: p.1, p.2)) else none

/-- Word-boundary test `\b` before a word character: holds at the start
of the text or after a non-word character. -/
def boundaryOk : Option Char → Bool
  | none => true
  | some c => !(isWordChar c)

/-- Generic left-to-right scan, as `re.findall` does: at each position
try the matcher; on success emit the groups and resume after the match,
otherwise advance one character.  `skip` counts positions still inside a
previous match, `prev` is the previous character (for `\b`). -/
def scanWith (m : List Char → Option (α × List Char)) :
    Option Char → Nat → List Char → List α
  | _, _, [] => []
  | _, Nat.succ k, c :: rest => scanWith m (some c) k rest
  | prev, 0, c :: rest =>
    if boundaryOk prev then
      match m (c :: rest) with
      | some (g, rest') =>
        g :: scanWith m (some c) (rest.length - rest'.length) rest
      | none => scanWith m (some c) 0 rest
    else scanWith m (some c) 0 rest

/-- Matcher for the module pattern `\bmodule\s+(\w+)\s*\(` (IGNORECASE).
Returns the captured module name and the rest of the text after the
opening parenthesis.  On this pattern greedy matching never needs to
backtrack: `\w`, `\s` and `(` are pairwise disjoint character classes. -/
def matchModule (l : List Char) : Option (String × List Char) :=
  match matchKw "module".data l with
  | none => none
  | some (_, r1) =>
    let s1 := spanP isSpaceChar r1
    if s1.1.isEmpty then none
    else
      let s2 := spanP isWordChar s1.2
      if s2.1.isEmpty then none
      else
        let s3 := spanP isSpaceChar s2.2
        match s3.2 with
        | '(' :: r => some (String.mk s2.1, r)
        | _ => none

/-- Candidate splits for the lazy group `\[.*?\]`: for text following an
opening bracket, lists for every `]` before the first newline the inner
text and the rest, nearest `]` first (the order in which the lazy `.*?`
tries them). -/
def widthCands : List Char → List (List Char × List Char)
  | [] => []
  | c :: r =>
    if c == '\n' then []
    else
      let tailCands := (widthCands r).map (fun p => (c :: p.1, p.2))
      if c == ']' then ([], r) :: tailCands else tailCands

/-- Tail of the signal pattern after an optional bracketed range was
opened: tries each candidate closing bracket in lazy order, requiring
`\s*(\w+)` after it, as the backtracking engine does. -/
def tryCands : List (List Char × List Char) → Option (List Char × List Char × List Char)
  | [] => none
  | (inner, rest) :: more =>
    let s1 := spanP isSpaceChar rest
    let s2 := spanP isWordChar s1.2
    if s2.1.isEmpty then tryCands more
    else some ('[' :: (inner ++ [']']), s2.1, s2.2)

/-- Matches `\s*(\[.*?\])?\s*(\w+)` and returns (width group text, name,
rest).  When the text does not open a bracket the width group is empty;
when it opens a bracket but no candidate closing bracket lets the rest
of the pattern match, the empty-width alternative also fails (the next
character `[` is not a word character), so the whole tail fails. -/
def matchWidthName (l : List Char) : Option (List Char × List Char × List Char) :=
  let s1 := spanP isSpaceChar l
  match s1.2 with
  | [] => none
  | c0 :: r =>
    if c0 == '[' then tryCands (widthCands r)
    else
      let s2 := spanP isWordChar (c0 :: r)
      if s2.1.isEmpty then none else some ([], s2.1, s2.2)

/-- Matches the optional non-capturing storage class `(?:wire|reg|logic)?`,
returning the rest after the keyword when one matches. -/
def matchStorage (l : List Char) : Option (List Char) :=
  match matchKw "wire".data l with
  | some (_, r) => some r
  | none =>
    match matchKw "reg".data l with
    | some (_, r) => some r
    | none =>
      match matchKw "logic".data l with
      | some (_, r) => some r
      | none => none

/-- Alternation `(input|output|inout)` tried in the written order, each
case-insensitively; the group captures the original text. -/
def matchDirection (l : List Char) : Option (List Char × List Char) :=
  match matchKw "input".data l with
  | some p => some p
  | none =>
    match matchKw "output".data l with
    | some p => some p
    | none => matchKw "inout".data l

/-- Matcher for the signal pattern
`\b(input|output|inout)\s+(?:wire|reg|logic)?\s*(\[.*?\])?\s*(\w+)`
(IGNORECASE).  The direction group captures the original text (case
preserved); a width group that does not participate is returned as the
empty string, matching `re.findall` output.  When the storage keyword
matches but the rest of the pattern then fails, the engine backtracks
and retries with the optional storage group empty.  `matchSigTail` is
the part of the pattern after `\\b(input|output|inout)\\s+`. -/
def matchSigTail (dir : List Char) (l : List Char) :
    Option ((String × String × String) × List Char) :=
  match matchStorage l with
  | some r2 =>
    match matchWidthName r2 with
    | some (w, nm, rest) => some ((String.mk dir, String.mk w, String.mk nm), rest)
    | none =>
      match matchWidthName l with
      | some (w, nm, rest) => some ((String.mk dir, String.mk w, String.mk nm), rest)
      | none => none
  | none =>
    match matchWidthName l with
    | some (w, nm, rest) => some ((String.mk dir, String.mk w, String.mk nm), rest)
    | none => none

def matchSig (l : List Char) : Option ((String × String × String) × List Char) :=
  match matchDirection l with
  | none => none
  | some (dir, r1) =>
    let s1 := spanP isSpaceChar r1
    if s1.1.isEmpty then none else matchSigTail dir s1.2

/-- Character class of the parameter value group, regex `[\w'\[\]:]`. -/
def isParamValChar (c : Char) : Bool :=
  isWordChar c || c == '\'' || c == '[' || c == ']' || c == ':'

/-- Matcher for `\bparameter\s+(\w+)\s*=\s*([\w'\[\]:]+);` (IGNORECASE);
greedy matching is deterministic on this pattern because the classes on
either side of each boundary are disjoint. -/
def matchParam (l : List Char) : Option ((String × String) × List Char) :=
  match matchKw "parameter".data l with
  | none => none
  | some (_, r1) =>
    let s1 := spanP isSpaceChar r1
    if s1.1.isEmpty then none
    else
      let s2 := spanP isWordChar s1.2
      if s2.1.isEmpty then none
      else
        let s3 := spanP isSpaceChar s2.2
        match s3.2 with
        | '=' :: r2 =>
          let s4 := spanP isSpaceChar r2
          let s5 := spanP isParamValChar s4.2
          if s5.1.isEmpty then none
          else
            match s5.2 with
            | ';' :: r3 => some ((String.mk s2.1, String.mk s5.1), r3)
            | _ => none
        | _ => none

/-- The `re.findall` scans of `parse_system_verilog`, one per pattern. -/
def scanModules (content : String) : List String :=
  scanWith matchModule none 0 content.data

/-- Scan for the signal pattern; yields `(direction, width, name)`
triples in text order, exactly as `re.findall` returns them. -/
def scanSignals (content : String) : List (String × String × String) :=
  scanWith matchSig none 0 content.data

/-- Scan for the parameter pattern; yields `(name, value)` pairs. -/
def scanParams (content : String) : List (String × String) :=
  scanWith matchParam none 0 content.data

/-- The set `RESERVED_KEYWORDS` from the source, in declaration order;
only membership is ever used, so a list models the Python set. -/
def RESERVED_KEYWORDS : List String :=
  ["always", "and", "assign", "automatic", "begin", "buf", "bufif0", "bufif1",
   "case", "casex", "casez", "cmos",
   "deassign", "default", "defparam", "disable", "edge", "else", "end",
   "endcase", "endfunction", "endgenerate",
   "endmodule", "endprimitive", "endspecify", "endtable", "endtask", "event",
   "for", "force", "forever", "fork",
   "function", "generate", "genvar", "highz0", "highz1", "if", "initial",
   "inout", "input", "integer", "join",
   "large", "macromodule", "medium", "module", "nand", "negedge", "nmos",
   "nor", "not", "notif0", "notif1", "or",
   "output", "parameter", "pmos", "posedge", "primitive", "pull0", "pull1",
   "pulldown", "pullup", "rcmos",
   "reg", "release", "repeat", "rnmos", "rpmos", "rtran", "rtranif0",
   "rtranif1", "scalared", "signed", "small",
   "specify", "specparam", "strong0", "strong1", "supply0", "supply1",
   "table", "task", "time", "tran",
   "tranif0", "tranif1", "tri", "tri0", "tri1", "triand", "trior", "trireg",
   "unsigned", "vectored", "wait",
   "wand", "weak0", "weak1", "while", "wire", "wor", "xnor", "xor"]

/-- Sanitizes a signal name: appends `_sig` when the name is a reserved
keyword, otherwise returns it unchanged (`sanitize_signal_name`). -/
def sanitize_signal_name (signal_name : String) : String :=
  if RESERVED_KEYWORDS.contains signal_name then signal_name ++ "_sig"
  else signal_name

/-- The dictionary returned by `parse_system_verilog`. -/
structure Design where
  modules : List String
  signals : List (String × String × String)
  parameters : List (String × String)
deriving Repr, DecidableEq

/-- Signal Model Builder stage: the list comprehension
`[(s[0], s[1], sanitize_signal_name(s[2])) for s in signals if s[2] not in RESERVED_KEYWORDS]`. -/
def buildSignals (signals : List (String × String × String)) :
    List (String × String × String) :=
  (signals.filter (fun s => !(RESERVED_KEYWORDS.contains s.2.2))).map
    (fun s => (s.1, s.2.1, sanitize_signal_name s.2.2))

/-- Pure core of `parse_system_verilog`: the file content has already
been read (reading, encodings and the debug prints are external I/O). -/
def parse_system_verilog (content : String) : Design :=
  { modules := scanModules content
    signals := buildSignals (scanSignals content)
    parameters := scanParams content }

example : scanSignals "module m(input wire a, output [7:0] b);\nendmodule\n" =
    [("input", "", "a"), ("output", "[7:0]", "b")] := by decide

example : scanModules "module m(input wire a);\nendmodule\n" = ["m"] := by decide

example : scanParams "parameter WIDTH = 8;\n" = [("WIDTH", "8")] := by decide

/-- Python `str.lower` on ASCII text, modelled characterwise. -/
def pyLower (s : String) : String := String.mk (s.data.map Char.toLower)

/-- Replaces the last element of a list, modelling the Python statement
`xs[-1] = f(xs[-1])`; the call sites always pass a non-empty list. -/
def modifyLast (f : String → String) : List String → List String
  | [] => []
  | [x] => [f x]
  | x :: y :: xs => x :: modifyLast f (y :: xs)

/-- Python `str.rstrip(chars)`: removes trailing characters that belong
to the given set. -/
def rstripSet (bad : List Char) (s : String) : String :=
  String.mk ((s.data.reverse.dropWhile (fun c => bad.contains c)).reverse)

/-- The zero-initialization line for one signal, `f"    {name} = 0;"`. -/
def initLine (signal_name : String) : String := "    " ++ signal_name ++ " = 0;"

/-- The clock toggle line, `f"    forever #5 {name} = ~{name};"`. -/
def toggleLine (signal_name : String) : String :=
  "    forever #5 " ++ signal_name ++ " = ~" ++ signal_name ++ ";"

/-- Test whether the stimulus generator treats a tuple as drivable:
`signal_type in ['input', 'inout']` (an exact, case-sensitive string
comparison against the captured direction text). -/
def isDriven (s : String × String × String) : Bool :=
  s.1 == "input" || s.1 == "inout"

/-- Test for the clock toggle: drivable and `'clk' in signal_name.lower()`. -/
def isClockTuple (s : String × String × String) : Bool :=
  isDriven s && containsSub "clk".data (pyLower s.2.2).data

/-- `generate_test_vectors`: builds the stimulus block line by line; the
two `for` loops append conditionally and are modelled by `foldl`. -/
def generate_test_vectors (signals : List (String × String × String)) : List String :=
  let tv := ["  initial begin", "    // Initialize inputs and apply test vectors"]
  let tv := signals.foldl
    (fun acc s => if isDriven s then acc ++ [initLine s.2.2] else acc) tv
  let tv := tv ++ ["    // Apply test vectors", "    #10;", "    res_n = 1;", "    #10;"]
  let tv := signals.foldl
    (fun acc s => if isClockTuple s then acc ++ [toggleLine s.2.2] else acc) tv
  tv ++ ["  end"]

/-- One format field of the monitor block, `f" {name} = %b,"`. -/
def fmtLine (s : String × String × String) : String := " " ++ s.2.2 ++ " = %b,"

/-- One argument of the monitor call, `f", {name}"`. -/
def argLine (s : String × String × String) : String := ", " ++ s.2.2

/-- `monitor_output`: builds the `$monitor` block; the `[-1]` assignment
strips a trailing comma from the last format field (or, with no signals,
leaves the header line unchanged since it has no trailing comma). -/
def monitor_output (signals : List (String × String × String)) : List String :=
  let mc := ["  initial begin", "    $monitor(\"At time %0t:"]
  let mc := signals.foldl (fun acc s => acc ++ [fmtLine s]) mc
  let mc := modifyLast (rstripSet [',']) mc
  let mc := mc ++ ["\", $time"]
  let mc := signals.foldl (fun acc s => acc ++ [argLine s]) mc
  mc ++ [");", "  end"]

/-- The declaration line for one signal: `reg` for `input`/`inout`
directions, `wire` otherwise, with the width range inserted verbatim
when the captured width text is non-empty (Python truthiness of `''`). -/
def declLine (s : String × String × String) : String :=
  let t := if isDriven s then "reg" else "wire"
  if s.2.1 == "" then "  " ++ t ++ " " ++ s.2.2 ++ ";" ++ "\n"
  else "  " ++ t ++ " " ++ s.2.1 ++ " " ++ s.2.2 ++ ";" ++ "\n"

/-- One name-based port binding line `f"    .{name}({name}),\n"`. -/
def bindLine (signal_name : String) : String :=
  "    ." ++ signal_name ++ "(" ++ signal_name ++ "),\n"

/-- The fixed timeout statement stopping simulation after 200 time units. -/
def timeoutStmt : String := "  initial begin\n    #200 $finish;\n  end\n"

/-- Body of the `for module in modules` loop of `setup_simulation`:
extends the accumulated chunk list with one module section. -/
def setupModuleBody (signals : List (String × String × String))
    (test_vectors monitor : List String)
    (sc : List String) (module : String) : List String :=
  let sc := sc ++ ["module " ++ module ++ "_tb;\n",
    "  // Declare variables for the inputs and outputs of the DUT (Device Under Test)\n"]
  let sc := signals.foldl (fun acc s => acc ++ [declLine s]) sc
  let sc := sc ++ ["\n  // Instantiate the DUT\n", "  " ++ module ++ " uut (\n"]
  let sc := signals.foldl (fun acc s => acc ++ [bindLine s.2.2]) sc
  let sc := modifyLast (fun l => rstripSet [',', '\n'] l ++ "\n  );\n") sc
  let sc := sc ++ ["\n  // Test vectors\n"] ++ test_vectors
  let sc := sc ++ ["\n  // Monitor changes\n"] ++ monitor
  sc ++ [timeoutStmt, "endmodule\n"]

/-- `setup_simulation`: assembles the whole testbench text as a list of
chunks, one module section per discovered module, appended in order. -/
def setup_simulation (modules : List String)
    (signals : List (String × String × String))
    (test_vectors monitor : List String) : List String :=
  modules.foldl (setupModuleBody signals test_vectors monitor)
    ["`timescale 1ns / 1ps\n"]

/-- Control flow of `main` once the source text is available: parse,
bail out with the "no modules" message when no module header was found,
otherwise run the whole generation pipeline (saving the file and the
result analysis are external I/O). -/
def run_main (content : String) : Except String (List String) :=
  let design := parse_system_verilog content
  if design.modules.isEmpty then
    Except.error "No modules found in the design. Exiting."
  else
    let test_vectors := generate_test_vectors design.signals
    let monitor := monitor_output design.signals
    Except.ok (setup_simulation design.modules design.signals test_vectors monitor)

/-! Generic list lemmas about the loop-append translation. -/

theorem foldl_append_ite (l : List α) (p : α → Bool) (f : α → β) (acc : List β) :
    l.foldl (fun a x => if p x then a ++ [f x] else a) acc =
      acc ++ l.filterMap (fun x => if p x then some (f x) else none) := by
  induction l generalizing acc with
  | nil => simp
  | cons x xs ih =>
    by_cases h : p x = true
    · simp [h, ih, List.append_assoc]
    · simp at h
      simp [h, ih]

theorem foldl_append_map (l : List α) (f : α → β) (acc : List β) :
    l.foldl (fun a x => a ++ [f x]) acc = acc ++ l.map f := by
  induction l generalizing acc with
  | nil => simp
  | cons x xs ih => simp [ih, List.append_assoc]

theorem modifyLast_cons_of_ne (f : String → String) (x : String) (l : List String)
    (hl : l ≠ []) : modifyLast f (x :: l) = x :: modifyLast f l := by
  cases l with
  | nil => exact absurd rfl hl
  | cons y ys => rfl

theorem modifyLast_append (f : String → String) (a b : List String) (hb : b ≠ []) :
    modifyLast f (a ++ b) = a ++ modifyLast f b := by
  induction a with
  | nil => rfl
  | cons x xs ih =>
    have hne : xs ++ b ≠ [] := by
      intro hxs
      exact hb (List.append_eq_nil.mp hxs).2
    rw [List.cons_append, modifyLast_cons_of_ne _ _ _ hne, ih, List.cons_append]

theorem mem_modifyLast (f : String → String) (l : List String) (x : String)
    (hx : x ∈ l) : ∃ y ∈ modifyLast f l, y = x ∨ y = f x := by
  induction l with
  | nil => cases hx
  | cons a as ih =>
    cases as with
    | nil =>
      rcases List.mem_cons.mp hx with rfl | h
      · exact ⟨f x, by simp [modifyLast]⟩
      · cases h
    | cons b bs =>
      rcases List.mem_cons.mp hx with rfl | hx2
      · exact ⟨x, by simp [modifyLast]⟩
      · rcases ih hx2 with ⟨y, hy, hor⟩
        exact ⟨y, by simp [modifyLast, hy], hor⟩

/-! Structural decompositions of the generated blocks. -/

/-- The conditional init emission of the first stimulus loop. -/
def initEmit (s : String × String × String) : Option String :=
  if isDriven s then some (initLine s.2.2) else none

/-- The conditional toggle emission of the second stimulus loop. -/
def toggleEmit (s : String × String × String) : Option String :=
  if isClockTuple s then some (toggleLine s.2.2) else none

theorem gen_decomp (signals : List (String × String × String)) :
    generate_test_vectors signals =
      ["  initial begin", "    // Initialize inputs and apply test vectors"]
      ++ signals.filterMap initEmit
      ++ ["    // Apply test vectors", "    #10;", "    res_n = 1;", "    #10;"]
      ++ signals.filterMap toggleEmit
      ++ ["  end"] := by
  simp only [generate_test_vectors]
  rw [foldl_append_ite signals isDriven (fun s => initLine s.2.2),
    foldl_append_ite signals isClockTuple (fun s => toggleLine s.2.2)]
  rfl

theorem mon_decomp (signals : List (String × String × String)) :
    monitor_output signals =
      modifyLast (rstripSet [','])
        (["  initial begin", "    $monitor(\"At time %0t:"] ++ signals.map fmtLine)
      ++ ["\", $time"] ++ signals.map argLine ++ [");", "  end"] := by
  simp only [monitor_output]
  rw [foldl_append_map signals fmtLine, foldl_append_map signals argLine]

/-- The port-binding region of one module section: the `uut (` opener,
one binding line per signal, with the trailing `,\n` of the last line
stripped and the closing `);` attached. -/
def instLines (module : String) (signals : List (String × String × String)) :
    List String :=
  modifyLast (fun l => rstripSet [',', '\n'] l ++ "\n  );\n")
    (("  " ++ module ++ " uut (\n") :: signals.map (fun s => bindLine s.2.2))

/-- One module section of the assembled testbench, as `setup_simulation`
emits it. -/
def secOf (signals : List (String × String × String))
    (test_vectors monitor : List String) (module : String) : List String :=
  ["module " ++ module ++ "_tb;\n",
   "  // Declare variables for the inputs and outputs of the DUT (Device Under Test)\n"]
  ++ signals.map declLine
  ++ ["\n  // Instantiate the DUT\n"]
  ++ instLines module signals
  ++ ["\n  // Test vectors\n"] ++ test_vectors
  ++ ["\n  // Monitor changes\n"] ++ monitor
  ++ [timeoutStmt, "endmodule\n"]

theorem setup_body_eq (signals : List (String × String × String))
    (test_vectors monitor : List String) (sc : List String) (m : String) :
    setupModuleBody signals test_vectors monitor sc m =
      sc ++ secOf signals test_vectors monitor m := by
  simp only [setupModuleBody]
  rw [foldl_append_map signals declLine,
    foldl_append_map signals (fun s => bindLine s.2.2)]
  rw [show sc ++ ["module " ++ m ++ "_tb;\n",
      "  // Declare variables for the inputs and outputs of the DUT (Device Under Test)\n"]
      ++ signals.map declLine ++ ["\n  // Instantiate the DUT\n", "  " ++ m ++ " uut (\n"]
      ++ signals.map (fun s => bindLine s.2.2) =
    (sc ++ ["module " ++ m ++ "_tb;\n",
      "  // Declare variables for the inputs and outputs of the DUT (Device Under Test)\n"]
      ++ signals.map declLine ++ ["\n  // Instantiate the DUT\n"])
      ++ (("  " ++ m ++ " uut (\n") :: signals.map (fun s => bindLine s.2.2)) from by
    simp [List.append_assoc]]
  rw [modifyLast_append _ _ _ (by simp)]
  simp only [secOf, instLines, List.append_assoc, List.cons_append, List.nil_append]

theorem setup_decomp (modules : List String)
    (signals : List (String × String × String))
    (test_vectors monitor : List String) :
    setup_simulation modules signals test_vectors monitor =
      "`timescale 1ns / 1ps\n" :: modules.flatMap (secOf signals test_vectors monitor) := by
  have key : ∀ (ms : List String) (acc : List String),
      ms.foldl (setupModuleBody signals test_vectors monitor) acc =
        acc ++ ms.flatMap (secOf signals test_vectors monitor) := by
    intro ms
    induction ms with
    | nil => intro acc; simp
    | cons m ms ih =>
      intro acc
      rw [List.foldl_cons, ih, setup_body_eq]
      simp [List.append_assoc]
  rw [setup_simulation, key]
  rfl

/-! Small string facts used throughout. -/

theorem strData_append (a b : String) : (a ++ b).data = a.data ++ b.data := rfl

theorem reserved_no_underscore : ∀ w ∈ RESERVED_KEYWORDS, '_' ∉ w.data := by decide

theorem contains_sig_false (s : String) :
    RESERVED_KEYWORDS.contains (s ++ "_sig") = false := by
  by_contra h
  have hmem : (s ++ "_sig") ∈ RESERVED_KEYWORDS :=
    List.elem_iff.mp (Bool.of_not_eq_false h)
  apply reserved_no_underscore _ hmem
  rw [strData_append]
  exact List.mem_append_right _ (by decide)

theorem sanitize_not_reserved (s : String)
    (h : RESERVED_KEYWORDS.contains s = false) : sanitize_signal_name s = s := by
  have hnm : s ∉ RESERVED_KEYWORDS := by
    intro hm
    have he : RESERVED_KEYWORDS.contains s = true := List.elem_eq_true_of_mem hm
    rw [he] at h
    cases h
  simp [sanitize_signal_name, hnm]

/-- Helper: every signal admitted by the Signal Model Builder is one of
the raw extracted tuples, unchanged, and its name is not reserved. -/
theorem mem_buildSignals (raws : List (String × String × String))
    (s : String × String × String) (hs : s ∈ buildSignals raws) :
    s ∈ raws ∧ RESERVED_KEYWORDS.contains s.2.2 = false := by
  unfold buildSignals at hs
  rcases List.mem_map.mp hs with ⟨r, hr, hmap⟩
  rcases List.mem_filter.mp hr with ⟨hrmem, hcond⟩
  have hcf : RESERVED_KEYWORDS.contains r.2.2 = false := by
    simpa using hcond
  have hsan : sanitize_signal_name r.2.2 = r.2.2 := sanitize_not_reserved _ hcf
  have hsr : s = r := by
    rw [← hmap, hsan]
  rw [hsr]
  exact ⟨hrmem, hcf⟩

theorem not_mem_of_contains_false {l : List String} {a : String}
    (h : l.contains a = false) : a ∉ l := by
  intro hm
  have he : l.contains a = true := List.elem_eq_true_of_mem hm
  rw [he] at h
  cases h

/-- C9: sanitization is idempotent — sanitizing an already-sanitized
identifier returns it unchanged — and sanitizing any reserved keyword
appends the fixed suffix `_sig`. -/
theorem C9_sanitize_idempotent :
    (∀ s : String,
      sanitize_signal_name (sanitize_signal_name s) = sanitize_signal_name s) ∧
    ∀ k ∈ RESERVED_KEYWORDS, sanitize_signal_name k = k ++ "_sig" := by
  constructor
  · intro s
    by_cases h : RESERVED_KEYWORDS.contains s = true
    · have hmem : s ∈ RESERVED_KEYWORDS := List.elem_iff.mp h
      have h1 : sanitize_signal_name s = s ++ "_sig" := by
        simp [sanitize_signal_name, hmem]
      rw [h1, sanitize_not_reserved _ (contains_sig_false s)]
    · have hc : RESERVED_KEYWORDS.contains s = false := by
        cases hb : RESERVED_KEYWORDS.contains s with
        | false => rfl
        | true => exact absurd hb h
      rw [sanitize_not_reserved _ hc, sanitize_not_reserved _ hc]
  · intro k hk
    simp [sanitize_signal_name, hk]

/-- C9 witness: the theorem applied at the concrete identifiers
`mysignal` (not reserved) and `module` (reserved). -/
theorem C9_witness :
    sanitize_signal_name (sanitize_signal_name "mysignal") =
      sanitize_signal_name "mysignal" ∧
    sanitize_signal_name "module" = "module" ++ "_sig" :=
  ⟨C9_sanitize_idempotent.1 "mysignal",
   C9_sanitize_idempotent.2 "module" (by decide)⟩

/-- C10: every signal in the design returned by extraction has a name
outside the reserved-keyword set, so the sanitizer is the identity on
every name already admitted into the model. -/
theorem C10_admitted_names_not_reserved (content : String)
    (s : String × String × String)
    (hs : s ∈ (parse_system_verilog content).signals) :
    s.2.2 ∉ RESERVED_KEYWORDS ∧ sanitize_signal_name s.2.2 = s.2.2 := by
  have h := mem_buildSignals (scanSignals content) s hs
  exact ⟨not_mem_of_contains_false h.2, sanitize_not_reserved _ h.2⟩

/-- C10 witness: the theorem applied to the signal extracted from a
concrete one-port module. -/
theorem C10_witness :
    "clk" ∉ RESERVED_KEYWORDS ∧ sanitize_signal_name "clk" = "clk" :=
  C10_admitted_names_not_reserved "module m(input clk);\nendmodule\n"
    ("input", "", "clk") (by decide)

/-- C4 counterexample: the port `if` (a reserved word) is extracted with
the resolved direction `input`, yet the model drops it entirely instead
of admitting it as `if_sig`: the builder filters on the raw name
regardless of direction. -/
theorem C4_counterexample :
    scanSignals "module m(input if);\nendmodule\n" = [("input", "", "if")] ∧
    "if" ∈ RESERVED_KEYWORDS ∧
    (parse_system_verilog "module m(input if);\nendmodule\n").signals = [] := by
  decide

/-- C4 amended: an extracted entry whose raw name equals a reserved
keyword is always dropped by the Signal Model Builder, even when its
direction is resolved; every admitted signal is a raw tuple passed
through verbatim (so the `_sig` suffix is never applied to an admitted
port). -/
theorem C4_amended_keyword_ports_dropped
    (raws : List (String × String × String))
    (s : String × String × String) (hs : s ∈ buildSignals raws) :
    s ∈ raws ∧ s.2.2 ∉ RESERVED_KEYWORDS := by
  have h := mem_buildSignals raws s hs
  exact ⟨h.1, not_mem_of_contains_false h.2⟩

/-- C4 witness: the amended theorem applied at a concrete admitted
signal. -/
theorem C4_witness :
    ("input", "", "a") ∈ ([("input", "", "a")] : List (String × String × String)) ∧
    "a" ∉ RESERVED_KEYWORDS :=
  C4_amended_keyword_ports_dropped [("input", "", "a")] ("input", "", "a")
    (by decide)

/-- C6 counterexample: the empty signal list contains no reset-like
input, yet the stimulus block still contains the reset assignment
`res_n = 1;` — the reset-release step is not a no-op. -/
theorem C6_counterexample : "    res_n = 1;" ∈ generate_test_vectors [] := by
  decide

/-- C6 amended: the Stimulus Synthesizer is a total function (it cannot
crash), and the reset-release write `res_n = 1;` is emitted
unconditionally, for every signal list — also when no reset-like signal
exists among the inputs. -/
theorem C6_amended_reset_unconditional
    (signals : List (String × String × String)) :
    "    res_n = 1;" ∈ generate_test_vectors signals := by
  rw [gen_decomp]
  have hmid : "    res_n = 1;" ∈
      ["    // Apply test vectors", "    #10;", "    res_n = 1;", "    #10;"] := by
    decide
  exact List.mem_append_left _ (List.mem_append_left _
    (List.mem_append_right _ hmid))

/-- C5 counterexample: the name `CLK` does not contain the substring
`clk` case-sensitively, yet the generator emits a perpetual toggle for
it — the code lowercases the name before the substring test. -/
theorem C5_counterexample :
    containsSub "clk".data "CLK".data = false ∧
    toggleLine "CLK" ∈ generate_test_vectors [("input", "", "CLK")] := by
  decide

/-- C5 amended: the toggle section of the stimulus block consists of
exactly the toggle statements for those input/inout signals whose
lowercased name contains `clk` — the substring match is
case-insensitive (via lowercasing), so an uppercase `CLK` also gets a
toggle. -/
theorem C5_amended_toggle_lowercased
    (signals : List (String × String × String)) :
    generate_test_vectors signals =
      ["  initial begin", "    // Initialize inputs and apply test vectors"]
      ++ signals.filterMap initEmit
      ++ ["    // Apply test vectors", "    #10;", "    res_n = 1;", "    #10;"]
      ++ signals.filterMap (fun s =>
          if (s.1 == "input" || s.1 == "inout")
              && containsSub "clk".data (pyLower s.2.2).data then
            some (toggleLine s.2.2)
          else none)
      ++ ["  end"] :=
  gen_decomp signals

/-- C8: for the empty signal list, monitor generation succeeds (it is a
total function) and produces exactly the five fixed lines; no produced
line ends in the `,` field separator, so the format string has no
dangling separator. -/
theorem C8_monitor_empty_wellformed :
    monitor_output [] =
      ["  initial begin", "    $monitor(\"At time %0t:", "\", $time", ");", "  end"] ∧
    (monitor_output []).all (fun l => !(l.data.getLastD ' ' == ',')) = true := by
  decide

theorem initLine_ne_delay (n : String) : initLine n ≠ "    #10;" := by
  intro h
  have hlen := congrArg String.length h
  rw [initLine, String.length_append, String.length_append] at hlen
  have h1 : ("    " : String).length = 4 := rfl
  have h2 : (" = 0;" : String).length = 5 := rfl
  have h3 : ("    #10;" : String).length = 8 := rfl
  rw [h1, h2, h3] at hlen
  omega

theorem takeWhile_append_of_all {α : Type} {p : α → Bool} (a b : List α)
    (h : ∀ x ∈ a, p x = true) :
    (a ++ b).takeWhile p = a ++ b.takeWhile p := by
  induction a with
  | nil => rfl
  | cons x xs ih =>
    rw [List.cons_append, List.takeWhile_cons, if_pos (h x (by simp)),
      ih (fun y hy => h y (by simp [hy])), List.cons_append]

/-- C3 counterexample: a port declared with the uppercase keyword
`INPUT` is extracted (keyword matching in the extractor is
case-insensitive and captures the original text), but the stimulus
generator compares the captured direction case-sensitively, so no
zero-initialization for it appears in the stimulus block. -/
theorem C3_counterexample :
    (parse_system_verilog "module m(INPUT x);\nendmodule\n").signals =
      [("INPUT", "", "x")] ∧
    pyLower "INPUT" = "input" ∧
    initLine "x" ∉
      generate_test_vectors
        (parse_system_verilog "module m(INPUT x);\nendmodule\n").signals := by
  decide

/-- C3 amended: for every extracted signal whose direction text is
exactly the lowercase `input` or `inout` (the generator compares the
captured direction case-sensitively), the stimulus block contains the
zero-initialization of that signal before the first delay statement,
hence at simulation time 0. -/
theorem C3_amended_init_at_time_zero
    (signals : List (String × String × String))
    (s : String × String × String) (hs : s ∈ signals)
    (hdir : s.1 = "input" ∨ s.1 = "inout") :
    initLine s.2.2 ∈
      (generate_test_vectors signals).takeWhile (fun l => !(l == "    #10;")) := by
  rcases List.append_of_mem hs with ⟨l1, l2, rfl⟩
  rw [gen_decomp]
  have hemit : initEmit s = some (initLine s.2.2) := by
    have hd : isDriven s = true := by
      rcases hdir with h | h <;> simp [isDriven, h]
    simp [initEmit, hd]
  have hfm : (l1 ++ s :: l2).filterMap initEmit =
      l1.filterMap initEmit ++ initLine s.2.2 :: l2.filterMap initEmit := by
    rw [List.filterMap_append]
    simp [List.filterMap_cons, hemit]
  rw [hfm]
  have hinit_ne : ∀ x ∈ l1.filterMap initEmit, (!(x == "    #10;")) = true := by
    intro x hx
    rcases List.mem_filterMap.mp hx with ⟨y, _, hfy⟩
    unfold initEmit at hfy
    by_cases hdy : isDriven y = true
    · rw [if_pos hdy] at hfy
      have heq := Option.some.inj hfy
      have hne : x ≠ "    #10;" := heq ▸ initLine_ne_delay y.2.2
      simpa using hne
    · rw [if_neg hdy] at hfy
      cases hfy
  have hfix : ∀ x ∈ (["  initial begin",
      "    // Initialize inputs and apply test vectors"] : List String),
      (!(x == "    #10;")) = true := by decide
  rw [show ["  initial begin", "    // Initialize inputs and apply test vectors"]
      ++ (l1.filterMap initEmit ++ initLine s.2.2 :: l2.filterMap initEmit)
      ++ ["    // Apply test vectors", "    #10;", "    res_n = 1;", "    #10;"]
      ++ (l1 ++ s :: l2).filterMap toggleEmit ++ ["  end"] =
    (["  initial begin", "    // Initialize inputs and apply test vectors"]
      ++ l1.filterMap initEmit)
      ++ (initLine s.2.2 :: (l2.filterMap initEmit
        ++ ["    // Apply test vectors", "    #10;", "    res_n = 1;", "    #10;"]
        ++ (l1 ++ s :: l2).filterMap toggleEmit ++ ["  end"])) from by
    simp [List.append_assoc]]
  rw [takeWhile_append_of_all _ _ (by
    intro x hx
    rcases List.mem_append.mp hx with h | h
    · exact hfix x h
    · exact hinit_ne x h)]
  rw [List.takeWhile_cons, if_pos (by
    have hne : initLine s.2.2 ≠ "    #10;" := initLine_ne_delay s.2.2
    simpa using hne)]
  exact List.mem_append_right _ (by simp)

/-- C3 witness: the amended theorem applied at a concrete signal list. -/
theorem C3_witness :
    initLine "x" ∈
      (generate_test_vectors [("input", "", "x")]).takeWhile
        (fun l => !(l == "    #10;")) :=
  C3_amended_init_at_time_zero [("input", "", "x")] ("input", "", "x")
    (by decide) (Or.inl rfl)

/-- C1: when no module header matches, the design carries the explicit
empty module list, the pipeline stops with the explicit "no module
found" failure and the Testbench Assembler is never invoked (the
assembler runs only inside the success branch); conversely any content
with a recognized module header — even one with zero ports — reaches
the assembler and yields a testbench, so the failure is distinguishable
from an empty module. -/
theorem C1_no_module_failure (content : String)
    (h : scanModules content = []) :
    (parse_system_verilog content).modules = [] ∧
    run_main content = Except.error "No modules found in the design. Exiting." ∧
    ∀ content2 : String, (parse_system_verilog content2).modules ≠ [] →
      ∃ tb, run_main content2 = Except.ok tb := by
  refine ⟨h, ?_, ?_⟩
  · unfold run_main
    simp [parse_system_verilog, h]
  · intro c2 h2
    unfold run_main
    rw [if_neg (by simp [List.isEmpty_iff, h2])]
    exact ⟨_, rfl⟩

/-- C1 witness: the theorem applied to content with no `module` keyword;
and through the theorem's last conjunct, a module with zero ports indeed
reaches the assembler. -/
theorem C1_witness :
    run_main "wire x;\n" = Except.error "No modules found in the design. Exiting." ∧
    ∃ tb, run_main "module m();\nendmodule\n" = Except.ok tb :=
  ⟨(C1_no_module_failure "wire x;\n" (by decide)).2.1,
   (C1_no_module_failure "wire x;\n" (by decide)).2.2 "module m();\nendmodule\n"
     (by decide)⟩

/-! String-shape helpers for the assembled testbench. -/

theorem strExt {a b : String} (h : a.data = b.data) : a = b := by
  cases a
  cases b
  cases h
  rfl

theorem dropWhile_append_of_all {α : Type} {p : α → Bool} (xs ys : List α)
    (h : ∀ x ∈ xs, p x = true) :
    (xs ++ ys).dropWhile p = ys.dropWhile p := by
  induction xs with
  | nil => rfl
  | cons x xs ih =>
    rw [List.cons_append, List.dropWhile_cons, if_pos (h x (by simp))]
    exact ih (fun y hy => h y (by simp [hy]))

/-- Computes `rstripSet` on text of the shape `a ++ [c] ++ junk` where
`c` is kept and everything in `junk` is stripped. -/
theorem rstrip_concrete (bad : List Char) (a : List Char) (c : Char)
    (tb : List Char) (hc : bad.contains c = false)
    (htb : ∀ x ∈ tb, bad.contains x = true) :
    (rstripSet bad (String.mk (a ++ c :: tb))).data = a ++ [c] := by
  show ((a ++ c :: tb).reverse.dropWhile (fun x => bad.contains x)).reverse
      = a ++ [c]
  rw [List.reverse_append, List.reverse_cons,
    show tb.reverse ++ [c] ++ a.reverse = tb.reverse ++ (c :: a.reverse) from by
      simp,
    dropWhile_append_of_all _ _ (fun x hx => htb x (List.mem_reverse.mp hx)),
    List.dropWhile_cons, if_neg (by intro hcc; rw [hc] at hcc; cases hcc)]
  rw [List.reverse_cons, List.reverse_reverse]

theorem startsWithL_self_append (n post : List Char) :
    startsWithL n (n ++ post) = true := by
  induction n with
  | nil => rfl
  | cons c cs ih => simp [startsWithL, ih]

theorem containsSub_of_split (n pre post : List Char) :
    containsSub n (pre ++ n ++ post) = true := by
  induction pre with
  | nil =>
    rw [List.nil_append]
    cases hn : n ++ post with
    | nil =>
      rcases List.append_eq_nil.mp hn with ⟨h1, -⟩
      subst h1
      rfl
    | cons c cs =>
      have hsw : startsWithL n (n ++ post) = true := startsWithL_self_append n post
      rw [hn] at hsw
      simp [containsSub, hsw]
  | cons p ps ih =>
    rw [List.cons_append]
    have ih2 : containsSub n (ps ++ (n ++ post)) = true := by
      rw [← List.append_assoc]
      exact ih
    simp [containsSub, ih2]

theorem head_of_prefixed (x y : String) (c : Char) (t : List Char)
    (hx : x.data = c :: t) : (x ++ y).data.head? = some c := by
  rw [strData_append, hx]
  rfl

theorem ne_of_head_ne (s t : String)
    (h : s.data.head? ≠ t.data.head?) : s ≠ t := by
  intro he
  exact h (he ▸ rfl)

theorem mem_modifyLast_src (f : String → String) (l : List String)
    (x : String) (hx : x ∈ modifyLast f l) :
    x ∈ l ∨ ∃ y ∈ l, x = f y := by
  induction l with
  | nil => cases hx
  | cons a as ih =>
    cases as with
    | nil =>
      rcases List.mem_cons.mp hx with rfl | h
      · exact Or.inr ⟨a, by simp⟩
      · cases h
    | cons b bs =>
      rcases List.mem_cons.mp hx with rfl | h2
      · exact Or.inl (by simp)
      · rcases ih h2 with h3 | ⟨y, hy, hxy⟩
        · exact Or.inl (by simp [h3])
        · exact Or.inr ⟨y, by simp [hy], hxy⟩

/-- Every line of the stimulus block starts with a space. -/
theorem gen_head_space (signals : List (String × String × String))
    (l : String) (hl : l ∈ generate_test_vectors signals) :
    l.data.head? = some ' ' := by
  rw [gen_decomp] at hl
  have hinit : ∀ x ∈ signals.filterMap initEmit, x.data.head? = some ' ' := by
    intro x hx
    rcases List.mem_filterMap.mp hx with ⟨y, -, hfy⟩
    unfold initEmit at hfy
    by_cases hdy : isDriven y = true
    · rw [if_pos hdy] at hfy
      rw [← Option.some.inj hfy]
      exact head_of_prefixed _ _ ' ' _ rfl
    · rw [if_neg hdy] at hfy; cases hfy
  have htog : ∀ x ∈ signals.filterMap toggleEmit, x.data.head? = some ' ' := by
    intro x hx
    rcases List.mem_filterMap.mp hx with ⟨y, -, hfy⟩
    unfold toggleEmit at hfy
    by_cases hdy : isClockTuple y = true
    · rw [if_pos hdy] at hfy
      rw [← Option.some.inj hfy]
      exact head_of_prefixed _ _ ' ' _ rfl
    · rw [if_neg hdy] at hfy; cases hfy
  have hfixA : ∀ x ∈ (["  initial begin",
      "    // Initialize inputs and apply test vectors"] : List String),
      x.data.head? = some ' ' := by decide
  have hfixC : ∀ x ∈ (["    // Apply test vectors", "    #10;", "    res_n = 1;",
      "    #10;"] : List String), x.data.head? = some ' ' := by decide
  have hfixE : ∀ x ∈ (["  end"] : List String), x.data.head? = some ' ' := by
    decide
  rcases List.mem_append.mp hl with h4 | hE
  · rcases List.mem_append.mp h4 with h3 | hD
    · rcases List.mem_append.mp h3 with h2 | hC
      · rcases List.mem_append.mp h2 with hA | hB
        · exact hfixA _ hA
        · exact hinit _ hB
      · exact hfixC _ hC
    · exact htog _ hD
  · exact hfixE _ hE

theorem dropWhile_append_stop {p : Char → Bool} (xs : List Char) (c : Char)
    (hc : p c = false) : (xs ++ [c]).dropWhile p = xs.dropWhile p ++ [c] := by
  induction xs with
  | nil =>
    show List.dropWhile p [c] = [c]
    rw [List.dropWhile_cons, if_neg (by rw [hc]; exact Bool.false_ne_true)]
  | cons x xs ih =>
    rw [List.cons_append, List.dropWhile_cons, List.dropWhile_cons]
    by_cases hx : p x = true
    · rw [if_pos hx, if_pos hx, ih]
    · rw [if_neg hx, if_neg hx, List.cons_append]

theorem rstrip_head (bad : List Char) (s : String) (c : Char) (t : List Char)
    (hs : s.data = c :: t) (hc : bad.contains c = false) :
    ∃ t2, (rstripSet bad s).data = c :: t2 := by
  refine ⟨(t.reverse.dropWhile (fun x => bad.contains x)).reverse, ?_⟩
  show (s.data.reverse.dropWhile (fun x => bad.contains x)).reverse = _
  rw [hs, List.reverse_cons, dropWhile_append_stop _ _ hc, List.reverse_append]
  rfl

/-- No line of the monitor block starts with the letter e. -/
theorem mon_head_ne_e (signals : List (String × String × String))
    (l : String) (hl : l ∈ monitor_output signals) :
    l.data.head? ≠ some 'e' := by
  rw [mon_decomp] at hl
  have hbase : ∀ y ∈ ["  initial begin", "    $monitor(\"At time %0t:"]
      ++ signals.map fmtLine, ∃ t, y.data = ' ' :: t := by
    intro y hy
    rcases List.mem_append.mp hy with h | h
    · rcases List.mem_cons.mp h with rfl | h2
      · exact ⟨_, rfl⟩
      · rcases List.mem_cons.mp h2 with rfl | h3
        · exact ⟨_, rfl⟩
        · cases h3
    · rcases List.mem_map.mp h with ⟨y2, -, rfl⟩
      exact ⟨_, rfl⟩
  have hM : ∀ x ∈ modifyLast (rstripSet [','])
      (["  initial begin", "    $monitor(\"At time %0t:"] ++ signals.map fmtLine),
      x.data.head? = some ' ' := by
    intro x hx
    rcases mem_modifyLast_src _ _ _ hx with h | ⟨y, hy, rfl⟩
    · rcases hbase x h with ⟨t, ht⟩
      rw [ht]; rfl
    · rcases hbase y hy with ⟨t, ht⟩
      rcases rstrip_head [','] y ' ' t ht (by rfl) with ⟨t2, ht2⟩
      rw [ht2]; rfl
  rcases List.mem_append.mp hl with h3 | hLast
  · rcases List.mem_append.mp h3 with h2 | hArg
    · rcases List.mem_append.mp h2 with hMm | hTime
      · rw [hM l hMm]; intro h; cases h; 
      · rcases List.mem_singleton.mp hTime with rfl
        intro h; cases h
    · rcases List.mem_map.mp hArg with ⟨y2, -, rfl⟩
      intro h; cases h
  · rcases List.mem_cons.mp hLast with rfl | h4
    · intro h; cases h
    · rcases List.mem_cons.mp h4 with rfl | h5
      · intro h; cases h
      · cases h5

theorem declLine_reg (s : String × String × String)
    (h : s.1 = "input" ∨ s.1 = "inout") :
    declLine s = if s.2.1 == "" then "  reg " ++ s.2.2 ++ ";\n"
      else "  reg " ++ s.2.1 ++ " " ++ s.2.2 ++ ";\n" := by
  have hd : isDriven s = true := by
    rcases h with h | h <;> simp [isDriven, h]
  unfold declLine
  rw [hd]
  by_cases hw : (s.2.1 == "") = true
  · rw [if_pos hw, if_pos hw]
    apply strExt
    simp [strData_append, List.append_assoc]
  · rw [if_neg hw, if_neg hw]
    apply strExt
    simp [strData_append, List.append_assoc]

theorem declLine_wire (s : String × String × String) (h : s.1 = "output") :
    declLine s = if s.2.1 == "" then "  wire " ++ s.2.2 ++ ";\n"
      else "  wire " ++ s.2.1 ++ " " ++ s.2.2 ++ ";\n" := by
  have hd : isDriven s = false := by simp [isDriven, h]
  unfold declLine
  rw [hd]
  by_cases hw : (s.2.1 == "") = true
  · rw [if_pos hw, if_pos hw]
    apply strExt
    simp [strData_append, List.append_assoc]
  · rw [if_neg hw, if_neg hw]
    apply strExt
    simp [strData_append, List.append_assoc]

theorem mem_secOf_decl (signals : List (String × String × String))
    (tv mon : List String) (m : String) (y : String)
    (hy : y ∈ signals.map declLine) : y ∈ secOf signals tv mon m := by
  unfold secOf
  exact List.mem_append_left _ (List.mem_append_left _ (List.mem_append_left _
    (List.mem_append_left _ (List.mem_append_left _ (List.mem_append_left _
      (List.mem_append_left _ (List.mem_append_right _ hy)))))))

theorem mem_secOf_inst (signals : List (String × String × String))
    (tv mon : List String) (m : String) (y : String)
    (hy : y ∈ instLines m signals) : y ∈ secOf signals tv mon m := by
  unfold secOf
  exact List.mem_append_left _ (List.mem_append_left _ (List.mem_append_left _
    (List.mem_append_left _ (List.mem_append_left _
      (List.mem_append_right _ hy)))))

theorem instLines_base_head (m : String)
    (signals : List (String × String × String)) (z : String)
    (hz : z ∈ ("  " ++ m ++ " uut (\n") :: signals.map (fun s => bindLine s.2.2)) :
    ∃ t, z.data = ' ' :: t := by
  rcases List.mem_cons.mp hz with rfl | h2
  · exact ⟨_, rfl⟩
  · rcases List.mem_map.mp h2 with ⟨s, -, rfl⟩
    exact ⟨_, rfl⟩

theorem instLines_head (m : String)
    (signals : List (String × String × String)) (y : String)
    (hy : y ∈ instLines m signals) : y.data.head? = some ' ' := by
  unfold instLines at hy
  rcases mem_modifyLast_src _ _ _ hy with h | ⟨z, hz, rfl⟩
  · rcases instLines_base_head m signals y h with ⟨t, ht⟩
    rw [ht]; rfl
  · rcases instLines_base_head m signals z hz with ⟨t, ht⟩
    rcases rstrip_head [',', '\n'] z ' ' t ht (by rfl) with ⟨t2, ht2⟩
    rw [strData_append, ht2]; rfl

theorem declLine_head (s : String × String × String) :
    (declLine s).data.head? = some ' ' := by
  unfold declLine
  by_cases hw : (s.2.1 == "") = true
  · rw [if_pos hw]; rfl
  · rw [if_neg hw]; rfl

theorem ne_endmodule_of_head (l : String) (h : l.data.head? ≠ some 'e') :
    "endmodule\n" ≠ l := by
  intro heq
  exact h (heq ▸ rfl)

/-- Each module section closes its unit exactly once: `endmodule`
appears exactly once in it. -/
theorem secOf_count_endmodule (signals : List (String × String × String))
    (m : String) :
    (secOf signals (generate_test_vectors signals) (monitor_output signals)
      m).count "endmodule\n" = 1 := by
  unfold secOf
  rw [List.count_append, List.count_append, List.count_append,
    List.count_append, List.count_append, List.count_append,
    List.count_append, List.count_append]
  have c1 : (["module " ++ m ++ "_tb;\n",
      "  // Declare variables for the inputs and outputs of the DUT (Device Under Test)\n"] :
      List String).count "endmodule\n" = 0 := by
    rw [List.count_eq_zero]
    intro hmem
    rcases List.mem_cons.mp hmem with h | h
    · refine ne_endmodule_of_head _ ?_ h
      rw [show (("module " ++ m ++ "_tb;\n")).data.head? = some 'm' from by
        rw [strData_append, strData_append]; rfl]
      intro hx; cases hx
    · rcases List.mem_cons.mp h with h2 | h2
      · exact absurd h2 (by decide)
      · cases h2
  have c2 : (signals.map declLine).count "endmodule\n" = 0 := by
    rw [List.count_eq_zero]
    intro hmem
    rcases List.mem_map.mp hmem with ⟨s, -, hds⟩
    refine ne_endmodule_of_head _ ?_ hds.symm
    rw [declLine_head]
    intro hx; cases hx
  have c3 : (["\n  // Instantiate the DUT\n"] : List String).count
      "endmodule\n" = 0 := by decide
  have c4 : (instLines m signals).count "endmodule\n" = 0 := by
    rw [List.count_eq_zero]
    intro hmem
    refine ne_endmodule_of_head _ ?_ rfl
    rw [instLines_head m signals _ hmem]
    intro hx; cases hx
  have c5 : (["\n  // Test vectors\n"] : List String).count "endmodule\n" = 0 := by
    decide
  have c6 : (generate_test_vectors signals).count "endmodule\n" = 0 := by
    rw [List.count_eq_zero]
    intro hmem
    refine ne_endmodule_of_head _ ?_ rfl
    rw [gen_head_space signals _ hmem]
    intro hx; cases hx
  have c7 : (["\n  // Monitor changes\n"] : List String).count "endmodule\n" = 0 := by
    decide
  have c8 : (monitor_output signals).count "endmodule\n" = 0 := by
    rw [List.count_eq_zero]
    intro hmem
    exact ne_endmodule_of_head _ (mon_head_ne_e signals _ hmem) rfl
  have c9 : ([timeoutStmt, "endmodule\n"] : List String).count "endmodule\n" = 1 := by
    decide
  rw [c1, c2, c3, c4, c5, c6, c7, c8, c9]

/-- The section of a module binds every signal by name: some emitted
line contains the text `.name(name)`. -/
theorem secOf_binds (signals : List (String × String × String))
    (tv mon : List String) (m : String)
    (s : String × String × String) (hs : s ∈ signals) :
    (secOf signals tv mon m).any
      (fun line =>
        containsSub ("." ++ s.2.2 ++ "(" ++ s.2.2 ++ ")").data line.data) = true := by
  have hb : bindLine s.2.2 ∈
      ("  " ++ m ++ " uut (\n") :: signals.map (fun x => bindLine x.2.2) :=
    List.mem_cons_of_mem _ (List.mem_map.mpr ⟨s, hs, rfl⟩)
  rcases mem_modifyLast (fun l => rstripSet [',', '\n'] l ++ "\n  );\n") _ _ hb
    with ⟨y, hy, hor⟩
  refine List.any_eq_true.mpr ⟨y, mem_secOf_inst signals tv mon m y hy, ?_⟩
  rcases hor with rfl | rfl
  · have hshape : (bindLine s.2.2).data =
        [' ', ' ', ' ', ' '] ++ ("." ++ s.2.2 ++ "(" ++ s.2.2 ++ ")").data
          ++ [',', '\n'] := by
      simp [bindLine, strData_append, List.append_assoc]
    rw [hshape]
    exact containsSub_of_split _ _ _
  · have h1 : bindLine s.2.2 = String.mk
        ((([' ', ' ', ' ', ' ', '.'] ++ s.2.2.data ++ ['(']) ++ s.2.2.data)
          ++ ')' :: [',', '\n']) := by
      apply strExt
      simp [bindLine, strData_append, List.append_assoc]
    have hr : rstripSet [',', '\n'] (bindLine s.2.2) = String.mk
        ([' ', ' ', ' ', ' '] ++ ("." ++ s.2.2 ++ "(" ++ s.2.2 ++ ")").data) := by
      rw [h1]
      apply strExt
      rw [rstrip_concrete _ _ _ _ (by rfl) (by decide)]
      simp [strData_append, List.append_assoc]
    have hfinal : (rstripSet [',', '\n'] (bindLine s.2.2) ++ "\n  );\n").data
        = [' ', ' ', ' ', ' '] ++ ("." ++ s.2.2 ++ "(" ++ s.2.2 ++ ")").data
          ++ ("\n  );\n").data := by
      rw [strData_append, hr]
    rw [hfinal]
    exact containsSub_of_split _ _ _

theorem getLast_append_pair {α : Type} (l : List α) (a b : α) :
    (l ++ [a, b]).getLast? = some b := by
  rw [show l ++ [a, b] = (l ++ [a]) ++ [b] from by simp, List.getLast?_concat]

theorem gen_shape (signals : List (String × String × String)) :
    (generate_test_vectors signals).head? = some "  initial begin" ∧
    (generate_test_vectors signals).getLast? = some "  end" := by
  rw [gen_decomp]
  exact ⟨rfl, List.getLast?_concat _⟩

theorem mon_shape (signals : List (String × String × String)) :
    (monitor_output signals).head? = some "  initial begin" ∧
    (monitor_output signals).getLast? = some "  end" := by
  rw [mon_decomp]
  exact ⟨rfl, getLast_append_pair _ _ _⟩

/-- C7: for every module and signal list, the assembled testbench is the
timescale header followed by one section per module; within the section
of any discovered module, every signal is declared as a `reg` when its
direction is `input`/`inout` and as a `wire` when it is `output`, with
the parsed width range inserted verbatim when present; every signal is
bound by name (`.name(name)`) in the instantiation; the section lays out
the stimulus block, then the monitor block, then the fixed
`#200 $finish` timeout (visible in the definition of `secOf`), and
closes the module unit exactly once; both synthesized blocks open with
`initial begin` and close with `end`. -/
theorem C7_testbench_assembly (modules : List String)
    (signals : List (String × String × String)) (m : String)
    (hm : m ∈ modules) :
    setup_simulation modules signals (generate_test_vectors signals)
        (monitor_output signals) =
      "`timescale 1ns / 1ps\n" ::
        modules.flatMap
          (secOf signals (generate_test_vectors signals)
            (monitor_output signals)) ∧
    (∀ s ∈ signals, s.1 = "input" ∨ s.1 = "inout" →
      (if s.2.1 == "" then "  reg " ++ s.2.2 ++ ";\n"
        else "  reg " ++ s.2.1 ++ " " ++ s.2.2 ++ ";\n") ∈
        setup_simulation modules signals (generate_test_vectors signals)
          (monitor_output signals)) ∧
    (∀ s ∈ signals, s.1 = "output" →
      (if s.2.1 == "" then "  wire " ++ s.2.2 ++ ";\n"
        else "  wire " ++ s.2.1 ++ " " ++ s.2.2 ++ ";\n") ∈
        setup_simulation modules signals (generate_test_vectors signals)
          (monitor_output signals)) ∧
    (∀ s ∈ signals,
      (setup_simulation modules signals (generate_test_vectors signals)
        (monitor_output signals)).any
        (fun line =>
          containsSub ("." ++ s.2.2 ++ "(" ++ s.2.2 ++ ")").data line.data) =
        true) ∧
    (secOf signals (generate_test_vectors signals) (monitor_output signals)
      m).count "endmodule\n" = 1 ∧
    (generate_test_vectors signals).head? = some "  initial begin" ∧
    (generate_test_vectors signals).getLast? = some "  end" ∧
    (monitor_output signals).head? = some "  initial begin" ∧
    (monitor_output signals).getLast? = some "  end" := by
  have hout : ∀ y : String,
      y ∈ secOf signals (generate_test_vectors signals) (monitor_output signals)
        m →
      y ∈ setup_simulation modules signals (generate_test_vectors signals)
        (monitor_output signals) := by
    intro y hy
    rw [setup_decomp]
    exact List.mem_cons_of_mem _ (List.mem_flatMap.mpr ⟨m, hm, hy⟩)
  refine ⟨setup_decomp modules signals _ _, ?_, ?_, ?_,
    secOf_count_endmodule signals m, (gen_shape signals).1,
    (gen_shape signals).2, (mon_shape signals).1, (mon_shape signals).2⟩
  · intro s hs hdir
    rw [← declLine_reg s hdir]
    exact hout _ (mem_secOf_decl signals _ _ m _
      (List.mem_map.mpr ⟨s, hs, rfl⟩))
  · intro s hs hdir
    rw [← declLine_wire s hdir]
    exact hout _ (mem_secOf_decl signals _ _ m _
      (List.mem_map.mpr ⟨s, hs, rfl⟩))
  · intro s hs
    rcases List.any_eq_true.mp (secOf_binds signals
        (generate_test_vectors signals) (monitor_output signals) m s hs)
      with ⟨line, hline, hc⟩
    exact List.any_eq_true.mpr ⟨line, hout _ hline, hc⟩

/-- C7 witness: the theorem applied to the fixture module with ports
`input clk`, `input [7:0] data_in`, `output [7:0] data_out`. -/
theorem C7_witness :
    "  reg clk;\n" ∈ setup_simulation ["m"]
      [("input", "", "clk"), ("input", "[7:0]", "data_in"),
       ("output", "[7:0]", "data_out")]
      (generate_test_vectors
        [("input", "", "clk"), ("input", "[7:0]", "data_in"),
         ("output", "[7:0]", "data_out")])
      (monitor_output
        [("input", "", "clk"), ("input", "[7:0]", "data_in"),
         ("output", "[7:0]", "data_out")]) ∧
    "  wire [7:0] data_out;\n" ∈ setup_simulation ["m"]
      [("input", "", "clk"), ("input", "[7:0]", "data_in"),
       ("output", "[7:0]", "data_out")]
      (generate_test_vectors
        [("input", "", "clk"), ("input", "[7:0]", "data_in"),
         ("output", "[7:0]", "data_out")])
      (monitor_output
        [("input", "", "clk"), ("input", "[7:0]", "data_in"),
         ("output", "[7:0]", "data_out")]) ∧
    (secOf
      [("input", "", "clk"), ("input", "[7:0]", "data_in"),
       ("output", "[7:0]", "data_out")]
      (generate_test_vectors
        [("input", "", "clk"), ("input", "[7:0]", "data_in"),
         ("output", "[7:0]", "data_out")])
      (monitor_output
        [("input", "", "clk"), ("input", "[7:0]", "data_in"),
         ("output", "[7:0]", "data_out")]) "m").count "endmodule\n" = 1 :=
  ⟨(C7_testbench_assembly ["m"]
      [("input", "", "clk"), ("input", "[7:0]", "data_in"),
       ("output", "[7:0]", "data_out")] "m" (by decide)).2.1
      ("input", "", "clk") (by decide) (Or.inl rfl),
   (C7_testbench_assembly ["m"]
      [("input", "", "clk"), ("input", "[7:0]", "data_in"),
       ("output", "[7:0]", "data_out")] "m" (by decide)).2.2.1
      ("output", "[7:0]", "data_out") (by decide) rfl,
   (C7_testbench_assembly ["m"]
      [("input", "", "clk"), ("input", "[7:0]", "data_in"),
       ("output", "[7:0]", "data_out")] "m" (by decide)).2.2.2.2.1⟩

/-! Round-trip fixture for the two port-declaration styles (C2): an
abstract module interface rendered once with inline directions and once
with bare header names plus separate direction statements in the body. -/

/-- One port of an abstract interface. -/
structure Port where
  dir : String
  storage : Option String
  width : Option String
  name : String

/-- Storage-class text of a port entry (` ` separated when present). -/
def storageText : Option String → String
  | none => ""
  | some s => s ++ " "

/-- Width text of a port entry (` ` separated when present). -/
def widthText : Option String → String
  | none => ""
  | some w => w ++ " "

/-- Textual rendering of one port declaration. -/
def entryText (p : Port) : String :=
  p.dir ++ " " ++ storageText p.storage ++ widthText p.width ++ p.name

/-- The raw tuple the extractor recovers for a port. -/
def rawOf (p : Port) : String × String × String :=
  (p.dir, p.width.getD "", p.name)

/-- Comma-space separated join, as in a port list. -/
def sepJoin : List String → String
  | [] => ""
  | [x] => x
  | x :: y :: xs => x ++ ", " ++ sepJoin (y :: xs)

/-- Plain concatenation of rendered lines. -/
def catStr : List String → String
  | [] => ""
  | s :: ss => s ++ catStr ss

/-- The interface in inline-direction form: every entry of the header
port list carries its direction (and optional storage/width). -/
def inlineForm (ports : List Port) : String :=
  "module dut(" ++ sepJoin (ports.map entryText) ++ ");\nendmodule\n"

/-- The interface in header-then-declared form: the header lists the
bare names; directions are declared by separate statements in the body. -/
def declaredForm (ports : List Port) : String :=
  "module dut(" ++ sepJoin (ports.map Port.name) ++ ");\n"
    ++ catStr (ports.map (fun p => entryText p ++ ";\n")) ++ "endmodule\n"

/-- Case-insensitive prefix test. -/
def ciPrefix : List Char → List Char → Bool
  | [], _ => true
  | _ :: _, [] => false
  | k :: ks, c :: cs => ciEq c k && ciPrefix ks cs

/-- The inside of a well-formed bracketed range: digits or colons,
closed by `]`. -/
def innerOk : List Char → Bool
  | [] => false
  | [c] => c == ']'
  | c :: rest => (c.isDigit || c == ':') && innerOk rest

/-- Well-formedness of the optional width annotation. -/
def widthOk : Option String → Bool
  | none => true
  | some w =>
    match w.data with
    | '[' :: r => innerOk r
    | _ => false

/-- Well-formedness of the optional storage class. -/
def storageOk : Option String → Bool
  | none => true
  | some s => s == "wire" || s == "reg" || s == "logic"

/-- A usable identifier: non-empty and made of word characters. -/
def nameOk (n : String) : Bool :=
  !n.data.isEmpty && n.data.all isWordChar

/-- Well-formed port: known direction keyword, known storage class,
well-formed width, identifier name; when the entry has neither storage
nor width, the name must not itself begin (case-insensitively) like a
storage keyword, or the tolerant regex would read it as one. -/
def wfPort (p : Port) : Bool :=
  (p.dir == "input" || p.dir == "output" || p.dir == "inout") &&
  storageOk p.storage && widthOk p.width && nameOk p.name &&
  (match p.storage, p.width with
   | none, none =>
     !(ciPrefix "wire".data p.name.data || ciPrefix "reg".data p.name.data
       || ciPrefix "logic".data p.name.data)
   | _, _ => true)

/-! Lemmas about the scanner, used to settle the round-trip claim. -/

theorem matchKw_rest (kw : List Char) :
    ∀ (l : List Char) (p : List Char × List Char),
    matchKw kw l = some p → p.2 = l.drop kw.length := by
  induction kw with
  | nil =>
    intro l p h
    cases h
    rfl
  | cons k ks ih =>
    intro l p h
    cases l with
    | nil => cases h
    | cons c cs =>
      unfold matchKw at h
      by_cases hc : ciEq c k = true
      · rw [if_pos hc] at h
        rcases Option.map_eq_some'.mp h with ⟨q, hq, hpq⟩
        rw [← hpq]
        exact ih cs q hq
      · rw [if_neg hc] at h
        cases h

theorem matchKw_bound (kw : List Char) :
    ∀ (w : List Char) (c : Char) (rest : List Char)
    (p : List Char × List Char),
    matchKw kw (w ++ c :: rest) = some p →
    (∀ k ∈ kw, ciEq c k = false) → kw.length ≤ w.length := by
  induction kw with
  | nil =>
    intro w c rest p _ _
    exact Nat.zero_le _
  | cons k ks ih =>
    intro w c rest p h hci
    cases w with
    | nil =>
      rw [List.nil_append] at h
      unfold matchKw at h
      rw [if_neg (by rw [hci k (by simp)]; exact Bool.false_ne_true)] at h
      cases h
    | cons a w2 =>
      rw [List.cons_append] at h
      unfold matchKw at h
      by_cases hc : ciEq a k = true
      · rw [if_pos hc] at h
        rcases Option.map_eq_some'.mp h with ⟨q, hq, -⟩
        have := ih w2 c rest q hq (fun x hx => hci x (by simp [hx]))
        simpa using Nat.succ_le_succ this
      · rw [if_neg hc] at h
        cases h

theorem matchKw_none_of_not_ciPrefix (kw : List Char) :
    ∀ (w : List Char) (c : Char) (rest : List Char),
    ciPrefix kw w = false → (∀ k ∈ kw, ciEq c k = false) →
    matchKw kw (w ++ c :: rest) = none := by
  induction kw with
  | nil =>
    intro w c rest hp _
    cases hp
  | cons k ks ih =>
    intro w c rest hp hci
    cases w with
    | nil =>
      rw [List.nil_append]
      unfold matchKw
      rw [if_neg (by rw [hci k (by simp)]; exact Bool.false_ne_true)]
    | cons a w2 =>
      rw [List.cons_append]
      unfold matchKw
      by_cases hc : ciEq a k = true
      · rw [if_pos hc]
        have hp2 : ciPrefix ks w2 = false := by
          unfold ciPrefix at hp
          rw [hc] at hp
          simpa using hp
        rw [ih w2 c rest hp2 (fun x hx => hci x (by simp [hx]))]
        rfl
      · rw [if_neg hc]

theorem spanP_stop {p : Char → Bool} (c : Char) (l : List Char)
    (hc : p c = false) : spanP p (c :: l) = ([], c :: l) := by
  unfold spanP
  rw [if_neg (by rw [hc]; exact Bool.false_ne_true)]

theorem spanP_all_append {p : Char → Bool} (w : List Char) (c : Char)
    (rest : List Char) (hw : ∀ x ∈ w, p x = true) (hc : p c = false) :
    spanP p (w ++ c :: rest) = (w, c :: rest) := by
  induction w with
  | nil => exact spanP_stop c rest hc
  | cons a w2 ih =>
    rw [List.cons_append]
    unfold spanP
    rw [if_pos (hw a (by simp)), ih (fun x hx => hw x (by simp [hx]))]

theorem word_not_space (c : Char) (h : isWordChar c = true) :
    isSpaceChar c = false := by
  cases hs : isSpaceChar c with
  | false => rfl
  | true =>
    exfalso
    unfold isSpaceChar at hs
    simp only [Bool.or_eq_true, beq_iff_eq] at hs
    rcases hs with ((((h1 | h1) | h1) | h1) | h1) | h1 <;>
      · subst h1
        exact absurd h (by decide)

theorem scan_step_none {α : Type} (m : List Char → Option (α × List Char))
    (prev : Option Char) (c : Char) (l : List Char)
    (h : m (c :: l) = none) :
    scanWith m prev 0 (c :: l) = scanWith m (some c) 0 l := by
  conv_lhs => unfold scanWith
  by_cases hb : boundaryOk prev = true
  · rw [if_pos hb, h]
  · rw [if_neg hb]

theorem scan_step_noBound {α : Type} (m : List Char → Option (α × List Char))
    (prev : Option Char) (c : Char) (l : List Char)
    (h : boundaryOk prev = false) :
    scanWith m prev 0 (c :: l) = scanWith m (some c) 0 l := by
  conv_lhs => unfold scanWith
  rw [if_neg (by rw [h]; exact Bool.false_ne_true)]

theorem scan_step_match {α : Type} (m : List Char → Option (α × List Char))
    (prev : Option Char) (c : Char) (l : List Char) (g : α)
    (rest : List Char) (hb : boundaryOk prev = true)
    (h : m (c :: l) = some (g, rest)) :
    scanWith m prev 0 (c :: l) =
      g :: scanWith m (some c) (l.length - rest.length) l := by
  conv_lhs => unfold scanWith
  rw [if_pos hb, h]

/-- The previous character after stepping over `cs` (staying at `prev`
when `cs` is empty). -/
def lastPrev (prev : Option Char) (cs : List Char) : Option Char :=
  match cs.getLast? with
  | some c => some c
  | none => prev

theorem lastPrev_cons (prev : Option Char) (c : Char) (cs : List Char) :
    lastPrev prev (c :: cs) = lastPrev (some c) cs := by
  cases cs with
  | nil => rfl
  | cons d ds =>
    unfold lastPrev
    rw [List.getLast?_cons_cons]
    cases hgl : (d :: ds).getLast? with
    | none =>
      exfalso
      simp at hgl
    | some x => rfl

theorem scan_skip_exact {α : Type} (m : List Char → Option (α × List Char)) :
    ∀ (cs : List Char) (prev : Option Char) (rest : List Char),
    scanWith m prev cs.length (cs ++ rest) =
      scanWith m (lastPrev prev cs) 0 rest := by
  intro cs
  induction cs with
  | nil =>
    intro prev rest
    rfl
  | cons c cs2 ih =>
    intro prev rest
    rw [List.cons_append,
      show (c :: cs2).length = cs2.length + 1 from rfl]
    rw [show scanWith m prev (cs2.length + 1) (c :: (cs2 ++ rest)) =
      scanWith m (some c) cs2.length (cs2 ++ rest) from rfl]
    rw [ih (some c) rest, lastPrev_cons]

theorem scan_word {α : Type} (m : List Char → Option (α × List Char)) :
    ∀ (w : List Char) (prev : Option Char) (rest : List Char),
    w.all isWordChar = true →
    (boundaryOk prev = true → m (w ++ rest) = none) →
    scanWith m prev 0 (w ++ rest) = scanWith m (lastPrev prev w) 0 rest := by
  intro w
  induction w with
  | nil =>
    intro prev rest _ _
    rfl
  | cons c w2 ih =>
    intro prev rest hw hm
    have hc : isWordChar c = true := by
      have := List.all_eq_true.mp hw c (by simp)
      simpa using this
    rw [List.cons_append]
    have hstep : scanWith m prev 0 (c :: (w2 ++ rest)) =
        scanWith m (some c) 0 (w2 ++ rest) := by
      by_cases hb : boundaryOk prev = true
      · exact scan_step_none m prev c (w2 ++ rest)
          (by rw [← List.cons_append]; exact hm hb)
      · exact scan_step_noBound m prev c (w2 ++ rest)
          (by cases hbb : boundaryOk prev with
              | false => rfl
              | true => exact absurd hbb hb)
    rw [hstep, ih (some c) rest
      (by simp only [List.all_cons, Bool.and_eq_true] at hw; exact hw.2)
      (fun hbb => absurd hbb (by simp [boundaryOk, hc])),
      lastPrev_cons]

theorem matchKw_head_false (k : Char) (ks : List Char) (c : Char)
    (l : List Char) (h : ciEq c k = false) :
    matchKw (k :: ks) (c :: l) = none := by
  unfold matchKw
  rw [if_neg (by rw [h]; exact Bool.false_ne_true)]

/-- A position whose first character can start no direction keyword
never matches the signal pattern. -/
theorem matchSig_cons_none (c : Char) (l : List Char)
    (h1 : ciEq c 'i' = false) (h2 : ciEq c 'o' = false) :
    matchSig (c :: l) = none := by
  have hi : matchKw ("input" : String).data (c :: l) = none :=
    matchKw_head_false 'i' _ c l h1
  have ho : matchKw ("output" : String).data (c :: l) = none :=
    matchKw_head_false 'o' _ c l h2
  have hn : matchKw ("inout" : String).data (c :: l) = none :=
    matchKw_head_false 'i' _ c l h1
  have hd : matchDirection (c :: l) = none := by
    unfold matchDirection
    rw [hi, ho, hn]
  unfold matchSig
  rw [hd]

theorem matchDirection_cases (l : List Char) (p : List Char × List Char)
    (h : matchDirection l = some p) :
    matchKw ("input" : String).data l = some p ∨
    matchKw ("output" : String).data l = some p ∨
    matchKw ("inout" : String).data l = some p := by
  unfold matchDirection at h
  cases h1 : matchKw ("input" : String).data l with
  | some q =>
    rw [h1] at h
    exact Or.inl h
  | none =>
    rw [h1] at h
    cases h2 : matchKw ("output" : String).data l with
    | some q =>
      rw [h2] at h
      exact Or.inr (Or.inl h)
    | none =>
      rw [h2] at h
      exact Or.inr (Or.inr h)

theorem matchSig_bare_aux (kw : List Char) (n : List Char)
    (hw : n.all isWordChar = true) (c : Char) (rest : List Char)
    (dir r1 : List Char)
    (hkw : matchKw kw (n ++ c :: rest) = some (dir, r1))
    (hci : ∀ k ∈ kw, ciEq c k = false) (hcs : isSpaceChar c = false) :
    (spanP isSpaceChar r1).1 = [] := by
  have hb : kw.length ≤ n.length := matchKw_bound kw n c rest (dir, r1) hkw hci
  have hr : r1 = (n ++ c :: rest).drop kw.length :=
    matchKw_rest kw _ _ hkw
  rw [List.drop_append_of_le_length hb] at hr
  cases hnd : n.drop kw.length with
  | nil =>
    rw [hr, hnd, List.nil_append, spanP_stop c rest hcs]
  | cons a as =>
    have ha : isWordChar a = true := by
      have hmem : a ∈ n := List.drop_subset _ _ (by rw [hnd]; simp)
      have := List.all_eq_true.mp hw a hmem
      simpa using this
    rw [hr, hnd, List.cons_append,
      spanP_stop a _ (word_not_space a ha)]

/-- A bare identifier (all word characters) followed by a non-space,
non-keyword character never matches the signal pattern: either no
direction keyword matches at all, or the mandatory white space fails
right after the keyword. -/
theorem matchSig_bare (n : List Char) (hw : n.all isWordChar = true)
    (c : Char) (rest : List Char)
    (hci : ∀ k ∈ ("input" : String).data ++ ("output" : String).data
      ++ ("inout" : String).data, ciEq c k = false)
    (hcs : isSpaceChar c = false) :
    matchSig (n ++ c :: rest) = none := by
  cases hd : matchDirection (n ++ c :: rest) with
  | none =>
    unfold matchSig
    rw [hd]
  | some p =>
    obtain ⟨dir, r1⟩ := p
    have hspan : (spanP isSpaceChar r1).1 = [] := by
      rcases matchDirection_cases _ _ hd with h | h | h
      · exact matchSig_bare_aux ("input" : String).data n hw c rest dir r1 h
          (fun k hk => hci k (List.mem_append_left _
            (List.mem_append_left _ hk))) hcs
      · exact matchSig_bare_aux ("output" : String).data n hw c rest dir r1 h
          (fun k hk => hci k (List.mem_append_left _
            (List.mem_append_right _ hk))) hcs
      · exact matchSig_bare_aux ("inout" : String).data n hw c rest dir r1 h
          (fun k hk => hci k (List.mem_append_right _ hk)) hcs
    unfold matchSig
    rw [hd]
    simp [hspan]

theorem nameOk_parts (n : String) (hn : nameOk n = true) :
    (∃ n0 nt, n.data = n0 :: nt) ∧ ∀ x ∈ n.data, isWordChar x = true := by
  unfold nameOk at hn
  rcases Bool.and_eq_true_iff.mp hn with ⟨h1, h2⟩
  constructor
  · cases hd : n.data with
    | nil =>
      rw [hd] at h1
      cases h1
    | cons a b => exact ⟨a, b, rfl⟩
  · intro x hx
    exact List.all_eq_true.mp h2 x hx

theorem beq_false_of_word (c : Char) (hc : isWordChar c = true)
    (d : Char) (hd : isWordChar d = false) : (c == d) = false := by
  cases hb : (c == d) with
  | false => rfl
  | true =>
    have : c = d := eq_of_beq hb
    rw [this] at hc
    rw [hc] at hd
    cases hd

theorem matchWidthName_no_width (n : String) (hn : nameOk n = true)
    (c : Char) (hcw : isWordChar c = false) (rest : List Char) :
    matchWidthName (n.data ++ c :: rest) = some ([], n.data, c :: rest) := by
  rcases nameOk_parts n hn with ⟨⟨n0, nt, hnd⟩, hword⟩
  have hn0 : isWordChar n0 = true := hword n0 (by rw [hnd]; simp)
  unfold matchWidthName
  rw [hnd, List.cons_append,
    spanP_stop n0 _ (word_not_space n0 hn0)]
  dsimp only
  rw [if_neg (by
    rw [beq_false_of_word n0 hn0 '[' (by decide)]
    exact Bool.false_ne_true)]
  rw [← List.cons_append,
    spanP_all_append (n0 :: nt) c rest
      (fun x hx => hword x (by rw [hnd]; exact hx)) hcw]
  rfl

theorem innerOk_split : ∀ (r : List Char), innerOk r = true →
    ∃ inner, r = inner ++ [']'] ∧
      ∀ x ∈ inner, (x.isDigit || x == ':') = true := by
  intro r
  induction r with
  | nil => intro h; cases h
  | cons a rest ih =>
    intro h
    cases rest with
    | nil =>
      refine ⟨[], ?_, by intro x hx; cases hx⟩
      have ha : a = ']' := eq_of_beq (by simpa [innerOk] using h)
      rw [ha]
      rfl
    | cons b rest2 =>
      have h2 : (a.isDigit || a == ':') = true ∧ innerOk (b :: rest2) = true := by
        unfold innerOk at h
        exact Bool.and_eq_true_iff.mp h
      rcases ih h2.2 with ⟨inner, heq, hall⟩
      refine ⟨a :: inner, by rw [heq, List.cons_append], ?_⟩
      intro x hx
      rcases List.mem_cons.mp hx with rfl | hx2
      · exact h2.1
      · exact hall x hx2

theorem digitColon_props (x : Char) (h : (x.isDigit || x == ':') = true) :
    (x == ']') = false ∧ (x == '\n') = false := by
  rcases (by simpa using h : x.isDigit = true ∨ (x == ':') = true) with hd | hc
  · constructor
    · cases hb : (x == ']') with
      | false => rfl
      | true =>
        have := eq_of_beq hb
        rw [this] at hd
        exact absurd hd (by decide)
    · cases hb : (x == '\n') with
      | false => rfl
      | true =>
        have := eq_of_beq hb
        rw [this] at hd
        exact absurd hd (by decide)
  · have := eq_of_beq hc
    rw [this]
    exact ⟨by decide, by decide⟩

theorem widthCands_first : ∀ (inner : List Char) (tail : List Char),
    (∀ x ∈ inner, (x == ']') = false ∧ (x == '\n') = false) →
    ∃ junk, widthCands (inner ++ ']' :: tail) = (inner, tail) :: junk := by
  intro inner
  induction inner with
  | nil =>
    intro tail _
    refine ⟨(widthCands tail).map (fun p => (']' :: p.1, p.2)), ?_⟩
    rw [List.nil_append]
    conv_lhs => unfold widthCands
    rw [if_neg (by decide), if_pos (by decide)]
  | cons a inner2 ih =>
    intro tail hprops
    have ha := hprops a (by simp)
    rcases ih tail (fun x hx => hprops x (by simp [hx])) with ⟨junk, hj⟩
    refine ⟨junk.map (fun p => (a :: p.1, p.2)), ?_⟩
    rw [List.cons_append]
    conv_lhs => unfold widthCands
    rw [if_neg (by rw [ha.2]; exact Bool.false_ne_true), hj,
      if_neg (by rw [ha.1]; exact Bool.false_ne_true)]
    rfl

theorem matchWidthName_space (l : List Char) :
    matchWidthName (' ' :: l) = matchWidthName l := by
  unfold matchWidthName
  rw [show spanP isSpaceChar (' ' :: l) =
    (' ' :: (spanP isSpaceChar l).1, (spanP isSpaceChar l).2) from by
      conv_lhs => unfold spanP
      rw [if_pos (by decide)]]

theorem matchWidthName_with_width (w : String) (hw : widthOk (some w) = true)
    (n : String) (hn : nameOk n = true) (c : Char)
    (hcw : isWordChar c = false) (rest : List Char) :
    matchWidthName (w.data ++ (' ' :: (n.data ++ c :: rest))) =
      some (w.data, n.data, c :: rest) := by
  rcases nameOk_parts n hn with ⟨⟨n0, nt, hnd⟩, hword⟩
  have hn0 : isWordChar n0 = true := hword n0 (by rw [hnd]; simp)
  obtain ⟨r0, hr0, hro⟩ : ∃ r0, w.data = '[' :: r0 ∧ innerOk r0 = true := by
    simp only [widthOk] at hw
    split at hw
    · next r heq => exact ⟨r, heq, hw⟩
    · next => cases hw
  rcases innerOk_split r0 hro with ⟨inner, hsplit, hall⟩
  have hprops := fun x hx => digitColon_props x (hall x hx)
  rcases widthCands_first inner (' ' :: (n.data ++ c :: rest)) hprops
    with ⟨junk, hfirst⟩
  unfold matchWidthName
  rw [hr0, List.cons_append, spanP_stop '[' _ (by decide)]
  dsimp only
  rw [if_pos (by decide)]
  rw [hsplit, List.append_assoc, List.singleton_append, hfirst]
  have hs1 : spanP isSpaceChar (' ' :: (n.data ++ c :: rest)) =
      ([' '], n.data ++ c :: rest) := by
    conv_lhs => unfold spanP
    rw [if_pos (by decide), hnd, List.cons_append,
      spanP_stop n0 _ (word_not_space n0 hn0)]
  have hs2 : spanP isWordChar (n.data ++ c :: rest) = (n.data, c :: rest) :=
    spanP_all_append _ _ _ (fun x hx => hword x hx) hcw
  conv_lhs => unfold tryCands
  simp only [hs1, hs2]
  rw [hnd]
  rw [if_neg (by simp)]

theorem matchSigTail_entry (dirT : List Char) (st wd : Option String)
    (hst : storageOk st = true) (hwd : widthOk wd = true)
    (n : String) (hn : nameOk n = true) (c : Char)
    (hcw : isWordChar c = false)
    (hck : ∀ k ∈ ("wire" : String).data ++ ("reg" : String).data
      ++ ("logic" : String).data, ciEq c k = false)
    (hnp : st = none → wd = none →
      ciPrefix ("wire" : String).data n.data = false ∧
      ciPrefix ("reg" : String).data n.data = false ∧
      ciPrefix ("logic" : String).data n.data = false)
    (rest : List Char) :
    matchSigTail dirT
      ((storageText st).data ++ ((widthText wd).data ++ (n.data ++ c :: rest))) =
      some ((String.mk dirT, wd.getD "", n), c :: rest) := by
  have hwidth : matchWidthName ((widthText wd).data ++ (n.data ++ c :: rest)) =
      some ((wd.getD "").data, n.data, c :: rest) := by
    cases wd with
    | none =>
      rw [show (widthText none).data = [] from rfl, List.nil_append]
      exact matchWidthName_no_width n hn c hcw rest
    | some w =>
      rw [show (widthText (some w)).data = w.data ++ [' '] from by
          simp [widthText, strData_append],
        List.append_assoc, List.singleton_append]
      exact matchWidthName_with_width w hwd n hn c hcw rest
  cases st with
  | some s =>
    have hsplit : (storageText (some s)).data
        ++ ((widthText wd).data ++ (n.data ++ c :: rest)) =
        s.data ++ (' ' :: ((widthText wd).data ++ (n.data ++ c :: rest))) := by
      rw [show (storageText (some s)).data = s.data ++ [' '] from by
        simp [storageText, strData_append]]
      rw [List.append_assoc, List.singleton_append]
    rw [hsplit]
    have hs3 : s = "wire" ∨ s = "reg" ∨ s = "logic" := by
      simp only [storageOk, Bool.or_eq_true, beq_iff_eq] at hst
      tauto
    have hstore : matchStorage (s.data
        ++ (' ' :: ((widthText wd).data ++ (n.data ++ c :: rest)))) =
        some (' ' :: ((widthText wd).data ++ (n.data ++ c :: rest))) := by
      rcases hs3 with rfl | rfl | rfl <;> rfl
    unfold matchSigTail
    rw [hstore]
    dsimp only
    rw [matchWidthName_space, hwidth]
  | none =>
    rw [show (storageText none).data = [] from rfl, List.nil_append]
    have hstore : matchStorage ((widthText wd).data ++ (n.data ++ c :: rest)) =
        none := by
      cases wd with
      | some w =>
        obtain ⟨r0, hr0⟩ : ∃ r0, w.data = '[' :: r0 := by
          simp only [widthOk] at hwd
          split at hwd
          · next r heq => exact ⟨r, heq⟩
          · next => cases hwd
        rw [show (widthText (some w)).data = w.data ++ [' '] from by
            simp [widthText, strData_append],
          List.append_assoc, List.singleton_append, hr0, List.cons_append]
        rfl
      | none =>
        rw [show (widthText none).data = [] from rfl, List.nil_append]
        rcases hnp rfl rfl with ⟨hp1, hp2, hp3⟩
        unfold matchStorage
        rw [matchKw_none_of_not_ciPrefix _ _ _ _ hp1
            (fun k hk => hck k (List.mem_append_left _
              (List.mem_append_left _ hk))),
          matchKw_none_of_not_ciPrefix _ _ _ _ hp2
            (fun k hk => hck k (List.mem_append_left _
              (List.mem_append_right _ hk))),
          matchKw_none_of_not_ciPrefix _ _ _ _ hp3
            (fun k hk => hck k (List.mem_append_right _ hk))]
    unfold matchSigTail
    rw [hstore]
    dsimp only
    rw [hwidth]

theorem matchSig_entry (p : Port) (hp : wfPort p = true) (c : Char)
    (hcw : isWordChar c = false)
    (hck : ∀ k ∈ ("wire" : String).data ++ ("reg" : String).data
      ++ ("logic" : String).data, ciEq c k = false)
    (rest : List Char) :
    matchSig ((entryText p).data ++ c :: rest) = some (rawOf p, c :: rest) := by
  unfold wfPort at hp
  simp only [Bool.and_eq_true] at hp
  obtain ⟨⟨⟨⟨hdir, hst⟩, hwd⟩, hnm⟩, hmat⟩ := hp
  have hnp : p.storage = none → p.width = none →
      ciPrefix ("wire" : String).data p.name.data = false ∧
      ciPrefix ("reg" : String).data p.name.data = false ∧
      ciPrefix ("logic" : String).data p.name.data = false := by
    intro h1 h2
    rw [h1, h2] at hmat
    simp only [Bool.not_eq_true', Bool.or_eq_false_iff] at hmat
    exact ⟨hmat.1.1, hmat.1.2, hmat.2⟩
  rcases nameOk_parts p.name hnm with ⟨⟨n0, nt, hnd⟩, hword⟩
  have hn0 : isWordChar n0 = true := hword n0 (by rw [hnd]; simp)
  have hshape : (entryText p).data ++ c :: rest =
      p.dir.data ++ (' ' :: ((storageText p.storage).data
        ++ ((widthText p.width).data ++ (p.name.data ++ c :: rest)))) := by
    simp [entryText, strData_append, List.append_assoc]
  have hrest0 : spanP isSpaceChar ((storageText p.storage).data
      ++ ((widthText p.width).data ++ (p.name.data ++ c :: rest))) =
      ([], (storageText p.storage).data
        ++ ((widthText p.width).data ++ (p.name.data ++ c :: rest))) := by
    cases hstc : p.storage with
    | some s =>
      have hs3 : s = "wire" ∨ s = "reg" ∨ s = "logic" := by
        rw [hstc] at hst
        simp only [storageOk, Bool.or_eq_true, beq_iff_eq] at hst
        tauto
      rcases hs3 with rfl | rfl | rfl <;>
        exact spanP_stop _ _ (by decide)
    | none =>
      rw [show (storageText none).data = [] from rfl, List.nil_append]
      cases hwdc : p.width with
      | some w =>
        obtain ⟨r0, hr0⟩ : ∃ r0, w.data = '[' :: r0 := by
          rw [hwdc] at hwd
          simp only [widthOk] at hwd
          split at hwd
          · next r heq => exact ⟨r, heq⟩
          · next => cases hwd
        rw [show (widthText (some w)).data = w.data ++ [' '] from by
            simp [widthText, strData_append],
          List.append_assoc, List.singleton_append, hr0, List.cons_append]
        exact spanP_stop _ _ (by decide)
      | none =>
        rw [show (widthText none).data = [] from rfl, List.nil_append,
          hnd, List.cons_append]
        exact spanP_stop _ _ (word_not_space n0 hn0)
  have hs1 : spanP isSpaceChar (' ' :: ((storageText p.storage).data
      ++ ((widthText p.width).data ++ (p.name.data ++ c :: rest)))) =
      ([' '], (storageText p.storage).data
        ++ ((widthText p.width).data ++ (p.name.data ++ c :: rest))) := by
    conv_lhs => unfold spanP
    rw [if_pos (by decide), hrest0]
  have htail := matchSigTail_entry p.dir.data p.storage p.width hst hwd
    p.name hnm c hcw hck hnp rest
  have hdir3 : p.dir = "input" ∨ p.dir = "output" ∨ p.dir = "inout" := by
    simp only [Bool.or_eq_true, beq_iff_eq] at hdir
    tauto
  have finish2 : ∀ dS : String, p.dir = dS →
      matchDirection (dS.data ++ (' ' :: ((storageText p.storage).data
        ++ ((widthText p.width).data ++ (p.name.data ++ c :: rest))))) =
        some (dS.data, ' ' :: ((storageText p.storage).data
          ++ ((widthText p.width).data ++ (p.name.data ++ c :: rest)))) →
      matchSig (dS.data ++ (' ' :: ((storageText p.storage).data
        ++ ((widthText p.width).data ++ (p.name.data ++ c :: rest))))) =
        some (rawOf p, c :: rest) := by
    intro dS hd hmd
    unfold matchSig
    rw [hmd]
    dsimp only
    rw [hs1]
    dsimp only
    rw [if_neg (by decide)]
    rw [← hd, htail]
    rfl
  rw [hshape]
  rcases hdir3 with hd | hd | hd
  · rw [hd]
    exact finish2 "input" hd rfl
  · rw [hd]
    exact finish2 "output" hd rfl
  · rw [hd]
    exact finish2 "inout" hd rfl

theorem scan_entry_sep (p : Port) (hp : wfPort p = true) (prev : Option Char)
    (hb : boundaryOk prev = true) (c : Char)
    (hcw : isWordChar c = false)
    (hck : ∀ k ∈ ("wire" : String).data ++ ("reg" : String).data
      ++ ("logic" : String).data, ciEq c k = false)
    (hc1 : ciEq c 'i' = false) (hc2 : ciEq c 'o' = false)
    (rest : List Char) :
    scanWith matchSig prev 0 ((entryText p).data ++ c :: rest) =
      rawOf p :: scanWith matchSig (some c) 0 rest := by
  have hdir3 : p.dir = "input" ∨ p.dir = "output" ∨ p.dir = "inout" := by
    unfold wfPort at hp
    simp only [Bool.and_eq_true, Bool.or_eq_true, beq_iff_eq] at hp
    tauto
  obtain ⟨e0, etail, he⟩ : ∃ e0 etail, (entryText p).data = e0 :: etail := by
    have hne : (entryText p).data ≠ [] := by
      rcases hdir3 with hd | hd | hd <;>
        simp [entryText, strData_append, hd]
    cases he2 : (entryText p).data with
    | nil => exact absurd he2 hne
    | cons e0 etail => exact ⟨e0, etail, rfl⟩
  have hm := matchSig_entry p hp c hcw hck rest
  rw [he] at hm
  rw [List.cons_append] at hm
  rw [he, List.cons_append,
    scan_step_match matchSig prev e0 (etail ++ c :: rest) (rawOf p)
      (c :: rest) hb hm,
    show (etail ++ c :: rest).length - (c :: rest).length = etail.length from by
      simp [List.length_append],
    scan_skip_exact matchSig etail (some e0) (c :: rest)]
  congr 1
  rw [scan_step_none _ _ _ _ (matchSig_cons_none c rest hc1 hc2)]

theorem scan_inline : ∀ (ports : List Port) (prev : Option Char)
    (tail : List Char), ports.all wfPort = true → boundaryOk prev = true →
    scanWith matchSig prev 0
      ((sepJoin (ports.map entryText)).data ++ ')' :: tail) =
      ports.map rawOf ++ scanWith matchSig (some ')') 0 tail := by
  intro ports
  induction ports with
  | nil =>
    intro prev tail _ _
    rw [show (sepJoin (([] : List Port).map entryText)).data = [] from rfl,
      List.nil_append,
      scan_step_none _ _ _ _ (matchSig_cons_none ')' _ (by decide) (by decide))]
    rfl
  | cons p ps ih =>
    intro prev tail hall hb
    have hall2 : wfPort p = true ∧ ps.all wfPort = true := by
      simpa [List.all_cons, Bool.and_eq_true] using hall
    cases ps with
    | nil =>
      rw [show (sepJoin ((p :: []).map entryText)).data = (entryText p).data
          from rfl,
        scan_entry_sep p hall2.1 prev hb ')' (by decide)
          (by decide) (by decide) (by decide) tail]
      rfl
    | cons q qs =>
      rw [show (sepJoin ((p :: q :: qs).map entryText)).data ++ ')' :: tail =
        (entryText p).data ++ ',' ::
          (' ' :: ((sepJoin ((q :: qs).map entryText)).data ++ ')' :: tail))
        from by simp [sepJoin, strData_append, List.append_assoc]]
      rw [scan_entry_sep p hall2.1 prev hb ',' (by decide)
          (by decide) (by decide) (by decide) _,
        scan_step_none _ _ _ _ (matchSig_cons_none ' ' _ (by decide)
          (by decide)),
        ih (some ' ') tail hall2.2 (by decide)]
      rfl

theorem wfPort_nameWord (p : Port) (hp : wfPort p = true) :
    p.name.data.all isWordChar = true := by
  unfold wfPort at hp
  simp only [Bool.and_eq_true] at hp
  have := hp.1.2
  unfold nameOk at this
  exact (Bool.and_eq_true_iff.mp this).2

theorem scan_names : ∀ (ports : List Port) (prev : Option Char)
    (tail : List Char), ports.all wfPort = true →
    scanWith matchSig prev 0
      ((sepJoin (ports.map Port.name)).data ++ ')' :: tail) =
      scanWith matchSig (some ')') 0 tail := by
  intro ports
  induction ports with
  | nil =>
    intro prev tail _
    rw [show (sepJoin (([] : List Port).map Port.name)).data = [] from rfl,
      List.nil_append,
      scan_step_none _ _ _ _ (matchSig_cons_none ')' _ (by decide) (by decide))]
  | cons p ps ih =>
    intro prev tail hall
    have hall2 : wfPort p = true ∧ ps.all wfPort = true := by
      simpa [List.all_cons, Bool.and_eq_true] using hall
    have hw := wfPort_nameWord p hall2.1
    cases ps with
    | nil =>
      rw [show (sepJoin ((p :: []).map Port.name)).data = p.name.data from rfl,
        scan_word matchSig p.name.data prev (')' :: tail) hw
          (fun _ => matchSig_bare p.name.data hw ')' tail (by decide)
            (by decide)),
        scan_step_none _ _ _ _
          (matchSig_cons_none ')' _ (by decide) (by decide))]
    | cons q qs =>
      rw [show (sepJoin ((p :: q :: qs).map Port.name)).data ++ ')' :: tail =
        p.name.data ++ ',' ::
          (' ' :: ((sepJoin ((q :: qs).map Port.name)).data ++ ')' :: tail))
        from by simp [sepJoin, strData_append, List.append_assoc]]
      rw [scan_word matchSig p.name.data prev _ hw
          (fun _ => matchSig_bare p.name.data hw ',' _ (by decide)
            (by decide)),
        scan_step_none _ _ _ _
          (matchSig_cons_none ',' _ (by decide) (by decide)),
        scan_step_none _ _ _ _
          (matchSig_cons_none ' ' _ (by decide) (by decide)),
        ih (some ' ') tail hall2.2]

theorem scan_decls : ∀ (ports : List Port) (prev : Option Char),
    ports.all wfPort = true → boundaryOk prev = true →
    scanWith matchSig prev 0
      ((catStr (ports.map (fun p => entryText p ++ ";\n"))).data
        ++ ("endmodule\n" : String).data) = ports.map rawOf := by
  intro ports
  induction ports with
  | nil =>
    intro prev _ _
    rw [show (catStr (([] : List Port).map
        (fun p => entryText p ++ ";\n"))).data = [] from rfl,
      List.nil_append,
      show ("endmodule\n" : String).data =
        'e' :: ("ndmodule\n" : String).data from rfl,
      scan_step_none _ _ _ _ (matchSig_cons_none 'e' _ (by decide) (by decide))]
    decide
  | cons p ps ih =>
    intro prev hall hb
    have hall2 : wfPort p = true ∧ ps.all wfPort = true := by
      simpa [List.all_cons, Bool.and_eq_true] using hall
    rw [show (catStr ((p :: ps).map (fun p => entryText p ++ ";\n"))).data
        ++ ("endmodule\n" : String).data =
      (entryText p).data ++ ';' ::
        ('\n' :: ((catStr (ps.map (fun p => entryText p ++ ";\n"))).data
          ++ ("endmodule\n" : String).data))
      from by simp [catStr, strData_append, List.append_assoc]]
    rw [scan_entry_sep p hall2.1 prev hb ';' (by decide)
        (by decide) (by decide) (by decide) _,
      scan_step_none _ _ _ _
        (matchSig_cons_none '\n' _ (by decide) (by decide)),
      ih (some '\n') hall2.2 (by decide)]
    rfl

theorem scan_header (X : List Char) :
    scanWith matchSig none 0 (("module dut(" : String).data ++ X) =
      scanWith matchSig (some '(') 0 X := by
  show scanWith matchSig none 0
    ('m' :: 'o' :: 'd' :: 'u' :: 'l' :: 'e' :: ' ' :: 'd' :: 'u' :: 't'
      :: '(' :: X) = scanWith matchSig (some '(') 0 X
  rw [scan_step_none _ _ _ _ (matchSig_cons_none 'm' _ (by decide) (by decide)),
    scan_step_noBound _ _ _ _ (by decide),
    scan_step_noBound _ _ _ _ (by decide),
    scan_step_noBound _ _ _ _ (by decide),
    scan_step_noBound _ _ _ _ (by decide),
    scan_step_noBound _ _ _ _ (by decide),
    scan_step_noBound _ _ _ _ (by decide),
    scan_step_none _ _ _ _ (matchSig_cons_none 'd' _ (by decide) (by decide)),
    scan_step_noBound _ _ _ _ (by decide),
    scan_step_noBound _ _ _ _ (by decide),
    scan_step_noBound _ _ _ _ (by decide)]

theorem scanSignals_inline (ports : List Port) (h : ports.all wfPort = true) :
    scanSignals (inlineForm ports) = ports.map rawOf := by
  unfold scanSignals inlineForm
  rw [show ("module dut(" ++ sepJoin (ports.map entryText)
      ++ ");\nendmodule\n" : String).data =
    ("module dut(" : String).data ++ ((sepJoin (ports.map entryText)).data
      ++ ')' :: (';' :: ('\n' :: ("endmodule\n" : String).data))) from by
      simp [strData_append, List.append_assoc]]
  rw [scan_header, scan_inline ports (some '(') _ h (by decide),
    show scanWith matchSig (some ')') 0
      (';' :: ('\n' :: ("endmodule\n" : String).data)) = [] from by decide]
  simp

theorem scanSignals_declared (ports : List Port)
    (h : ports.all wfPort = true) :
    scanSignals (declaredForm ports) = ports.map rawOf := by
  unfold scanSignals declaredForm
  rw [show ("module dut(" ++ sepJoin (ports.map Port.name) ++ ");\n"
      ++ catStr (ports.map (fun p => entryText p ++ ";\n"))
      ++ "endmodule\n" : String).data =
    ("module dut(" : String).data ++ ((sepJoin (ports.map Port.name)).data
      ++ ')' :: (';' :: ('\n' ::
        ((catStr (ports.map (fun p => entryText p ++ ";\n"))).data
          ++ ("endmodule\n" : String).data)))) from by
      simp [strData_append, List.append_assoc]]
  rw [scan_header, scan_names ports (some '(') _ h,
    scan_step_none _ _ _ _ (matchSig_cons_none ';' _ (by decide) (by decide)),
    scan_step_none _ _ _ _ (matchSig_cons_none '\n' _ (by decide) (by decide))]
  exact scan_decls ports (some '\n') h (by decide)

/-- C2: for every well-formed module interface, extraction from the
inline-direction form and extraction from the header-then-declared form
yield equal Signal sequences — the whole-text regex scan recovers the
same `(direction, width, name)` tuples from the separate direction
statements as from the inline port list, and the Signal Model Builder
then treats them identically. -/
theorem C2_inline_declared_equiv (ports : List Port)
    (h : ports.all wfPort = true) :
    (parse_system_verilog (inlineForm ports)).signals =
      (parse_system_verilog (declaredForm ports)).signals := by
  show buildSignals (scanSignals (inlineForm ports)) =
    buildSignals (scanSignals (declaredForm ports))
  rw [scanSignals_inline ports h, scanSignals_declared ports h]

/-- C2 witness: the theorem applied to a three-port interface mixing
storage classes and widths. -/
theorem C2_witness :
    ([⟨"input", some "wire", none, "clk"⟩,
      ⟨"output", none, some "[7:0]", "data_out"⟩,
      ⟨"inout", some "logic", some "[3:0]", "io_bus"⟩] :
        List Port).all wfPort = true ∧
    (parse_system_verilog (inlineForm
      [⟨"input", some "wire", none, "clk"⟩,
       ⟨"output", none, some "[7:0]", "data_out"⟩,
       ⟨"inout", some "logic", some "[3:0]", "io_bus"⟩])).signals =
    (parse_system_verilog (declaredForm
      [⟨"input", some "wire", none, "clk"⟩,
       ⟨"output", none, some "[7:0]", "data_out"⟩,
       ⟨"inout", some "logic", some "[3:0]", "io_bus"⟩])).signals :=
  ⟨by decide, C2_inline_declared_equiv _ (by decide)⟩
